import Mathlib

/-!
Verification development for the zotero-bibtex fetch action.

The repository consists of two near-identical files: a TypeScript action
(src/unnamed/part_000) and a Node script
(src/.github/scripts/fetch_library_bibtex_with_pinned.mjs).  Both fetch CSL
entries from the Zotero API page by page, build a pinned-key index and a
type-hint index, fetch raw BibTeX text in batches, and run a four-pass
regex rewrite over the concatenated text.

This file embeds that logic shallowly over List Char.  The JavaScript
regexes used by the sources are simple enough that each global replace is
realized as a deterministic left-to-right scanner: each regex there is
conflict-free (every quantified class excludes the character that follows
it), so greedy matching with backtracking degenerates to maximal munch,
except where noted in the comments of the corresponding definition.
Helper definitions shared by both embedded files correspond to source
functions whose text is character-identical in the two files.
-/

namespace ZoteroBib

/-- JavaScript whitespace class (regex backslash-s and String.trim), restricted
to the code points that can occur here; exotic Unicode spaces are omitted. -/
def isWS (c : Char) : Bool :=
  c = ' ' || c = '\t' || c = '\n' || c = '\r' || c = '\x0b' || c = '\x0c' ||
  c = '\u00A0' || c = '\u2028' || c = '\u2029' || c = '\uFEFF'

/-- JavaScript word-character class (regex backslash-w). -/
def isWordChar (c : Char) : Bool :=
  ('a' ≤ c && c ≤ 'z') || ('A' ≤ c && c ≤ 'Z') || ('0' ≤ c && c ≤ '9') || c = '_'

/-- The character class [A-Z] used by the acronym regex. -/
def isUpperAZ (c : Char) : Bool := 'A' ≤ c && c ≤ 'Z'

/-- JavaScript line terminators, which delimit lines for multiline anchors. -/
def isLineTerm (c : Char) : Bool :=
  c = '\n' || c = '\r' || c = '\u2028' || c = '\u2029'

/-- ASCII lowering, the effect of the regex i flag on the characters used here. -/
def toLowerA (c : Char) : Char :=
  if 'A' ≤ c && c ≤ 'Z' then Char.ofNat (c.toNat + 32) else c

/-- JavaScript disjunction (x || y) on strings: the empty string is falsy. -/
def jsOr (a : Option (List Char)) (b : List Char) : List Char :=
  match a with
  | some s => if s = [] then b else s
  | none => b

/-- String.trim of JavaScript: drop whitespace from both ends. -/
def trimWS (l : List Char) : List Char :=
  ((l.dropWhile isWS).reverse.dropWhile isWS).reverse

/-- Case-insensitive literal matcher: strip a case variant of the pattern
(first argument) from the front of the input, returning the variant as it
appeared together with the rest of the input. -/
def stripCI : List Char → List Char → Option (List Char × List Char)
  | [], s => some ([], s)
  | _ :: _, [] => none
  | f :: fs, c :: cs =>
    if toLowerA c = toLowerA f then
      match stripCI fs cs with
      | some (a, r) => some (c :: a, r)
      | none => none
    else none

/-- Characters allowed in a pinned-key token by the source regex class
that excludes whitespace and the hash sign. -/
def isTokChar (c : Char) : Bool := !(isWS c || c = '#')

/-- One anchored attempt of the pinnedFromNote regex at a line start:
optional whitespace, the label Citation Key with a colon (case-insensitive),
optional whitespace, a nonempty token without whitespace or hash, then
whitespace up to a line end.  The final multiline end anchor succeeds when,
after the token, either only whitespace remains or the whitespace run
reaches a line terminator. -/
def matchCitationLine (s : List Char) : Option (List Char) :=
  let r1 := s.dropWhile isWS
  match stripCI ("Citation Key:".data) r1 with
  | none => none
  | some (_, r2) =>
    let r3 := r2.dropWhile isWS
    let tok := r3.takeWhile isTokChar
    let r4 := r3.dropWhile isTokChar
    if tok = [] then none
    else if r4.dropWhile isWS = [] || (r4.takeWhile isWS).any isLineTerm then some tok
    else none

/-- Scan for the first line-start position at which the citation-key regex
matches; the flag records whether the current position follows a line
terminator (or is the start of the text). -/
def findCitation : Bool → List Char → Option (List Char)
  | _, [] => none
  | atLS, c :: cs =>
    if atLS then
      match matchCitationLine (c :: cs) with
      | some tok => some tok
      | none => findCitation (isLineTerm c) cs
    else findCitation (isLineTerm c) cs

/-- pinnedFromNote of both source files: a missing or empty note yields no
pin, otherwise the note is searched for a citation-key line. -/
def pinnedFromNote (note : Option (List Char)) : Option (List Char) :=
  match note with
  | none => none
  | some n => if n = [] then none else findCitation true n

/-- A CSL entry as the sources use it: the three fields read by the code. -/
structure CSLItem where
  id : Option (List Char)
  note : Option (List Char)
  type : Option (List Char)
deriving DecidableEq

/-- The substring after the last slash, the effect of splitting on the
slash and taking the last piece. -/
def afterLastSlash (s : List Char) : List Char :=
  (s.reverse.takeWhile (fun c => c != '/')).reverse

/-- Item key of an entry: substring of its id after the last slash, with a
missing id treated as the empty string. -/
def itemKeyOf (it : CSLItem) : List Char :=
  afterLastSlash (it.id.getD [])

/-- The three indexes built by the single pass over the fetched entries.
The two maps are kept as insertion sequences; lookups take the latest
binding, matching Map.set overwrite semantics. -/
structure Indexes where
  pinnedMap : List (List Char × List Char)
  typeHints : List (List Char × List Char)
  itemKeys : List (List Char)
deriving DecidableEq

def emptyIndexes : Indexes := ⟨[], [], []⟩

/-- Lookup in an insertion sequence: latest binding wins. -/
def mapGet (m : List (List Char × List Char)) (k : List Char) : Option (List Char) :=
  match m.reverse.find? (fun e => e.1 == k) with
  | some e => some e.2
  | none => none

/-- One iteration of the index-building loop: skip the entry when its item
key is empty; otherwise append the key to the key list, register a pin if
the note yields a truthy one, and register a type hint if the type field is
truthy. -/
def indexStep (st : Indexes) (it : CSLItem) : Indexes :=
  let key := itemKeyOf it
  if key = [] then st
  else
    let st1 : Indexes := ⟨st.pinnedMap, st.typeHints, st.itemKeys ++ [key]⟩
    let st2 : Indexes :=
      match pinnedFromNote it.note with
      | some p => if p = [] then st1 else ⟨st1.pinnedMap ++ [(key, p)], st1.typeHints, st1.itemKeys⟩
      | none => st1
    match it.type with
    | some t => if t = [] then st2 else ⟨st2.pinnedMap, st2.typeHints ++ [(key, t)], st2.itemKeys⟩
    | none => st2

/-- Index construction of the TypeScript action (part_000, lines 113 to 125). -/
def buildIndexesTS (items : List CSLItem) : Indexes :=
  items.foldl indexStep emptyIndexes

/-- Index construction of the Node script (mjs file, lines 125 to 137); its
loop body is character-identical to the TypeScript one. -/
def buildIndexesMJS (items : List CSLItem) : Indexes :=
  items.foldl indexStep emptyIndexes

/-- A page response body: a JSON array, an object with an items array, or
anything else. -/
inductive JsonBody where
  | arr (items : List CSLItem)
  | objWithItems (items : List CSLItem)
  | other
deriving DecidableEq

/-- normalizeItems of both files. -/
def normalizeItems : JsonBody → List CSLItem
  | .arr l => l
  | .objWithItems l => l
  | .other => []

/-- A page response: body plus the parsed numeric value of the
Total-Results header when the header is present and numeric. -/
structure PageResp where
  body : JsonBody
  totalResults : Option Nat
deriving DecidableEq

/-- The pagination loop of fetchAllParentsCSL, with the server modelled as
a map from start offset to response and an explicit fuel bound standing in
for nontermination against adversarial servers.  Returns the list of
requested offsets together with the accumulated entries. -/
def fetchLoop (server : Nat → PageResp) : Nat → Nat → List CSLItem → List Nat → List Nat × List CSLItem
  | 0, _, all, reqs => (reqs, all)
  | fuel + 1, start, all, reqs =>
    let r := server start
    let page := normalizeItems r.body
    let total := r.totalResults.getD page.length
    let all2 := all ++ page
    let reqs2 := reqs ++ [start]
    if page.length < 100 ∨ total ≤ all2.length then (reqs2, all2)
    else fetchLoop server fuel (start + page.length) all2 reqs2

/-- fetchAllParentsCSL: start at offset zero with nothing accumulated. -/
def fetchAllParentsCSL (server : Nat → PageResp) (fuel : Nat) : List Nat × List CSLItem :=
  fetchLoop server fuel 0 [] []

/-- One iteration of the bib accumulation loop: a batch response that is
empty or whitespace-only contributes nothing; otherwise a newline is added
when the accumulator is nonempty and does not already end in one, and the
trimmed block plus a newline is appended. -/
def assembleBibStep (bib : List Char) (part : List Char) : List Char :=
  if part ≠ [] ∧ trimWS part ≠ [] then
    (if bib ≠ [] ∧ bib.getLast? ≠ some '\n' then bib ++ ['\n'] else bib) ++ trimWS part ++ ['\n']
  else bib

/-- The bib accumulation loop over the ordered batch responses. -/
def assembleBib (parts : List (List Char)) : List Char :=
  parts.foldl assembleBibStep []

/-- Modelled from the claim wording for comparison: the concatenation, in
fetch order, of each nonempty trimmed block followed by one newline. -/
def assembleBibSpec (parts : List (List Char)) : List Char :=
  ((parts.map trimWS).filter (fun b => !b.isEmpty)).foldr (fun b acc => b ++ '\n' :: acc) []

theorem dropWhile_length_le (p : Char → Bool) (l : List Char) :
    (l.dropWhile p).length ≤ l.length :=
  List.Sublist.length_le (List.dropWhile_sublist p)

/-- The CSL to BibTeX type map, identical in both files. -/
def typeMapL : List (List Char × List Char) :=
  [("article-journal".data, "article".data),
   ("article".data, "article".data),
   ("book".data, "book".data),
   ("chapter".data, "incollection".data),
   ("paper-conference".data, "inproceedings".data),
   ("thesis".data, "thesis".data),
   ("report".data, "report".data),
   ("webpage".data, "online".data),
   ("post".data, "online".data),
   ("post-weblog".data, "online".data),
   ("dataset".data, "dataset".data),
   ("manuscript".data, "unpublished".data)]

/-- Property read on the type-map object. -/
def typeMapLookup (k : List Char) : Option (List Char) :=
  (typeMapL.find? (fun e => e.1 == k)).map (fun e => e.2)

/-- Consume one required literal character. -/
def reqCharStep (c : Char) (s : List Char) : Option (List Char) :=
  match s with
  | [] => none
  | d :: ds => if d = c then some ds else none

/-- Consume a required nonempty maximal run of characters of a class.
This realizes a greedy one-or-more quantifier whose continuation is a
character excluded from the class, so no backtracking can occur. -/
def reqRunStep (p : Char → Bool) (s : List Char) : Option (List Char × List Char) :=
  if s.takeWhile p = [] then none else some (s.takeWhile p, s.dropWhile p)

theorem reqCharStep_length {c : Char} {s r : List Char} (h : reqCharStep c s = some r) :
    r.length < s.length := by
  match s with
  | [] => simp [reqCharStep] at h
  | d :: ds =>
    simp only [reqCharStep] at h
    split at h
    · cases h; simp
    · simp at h

theorem reqRunStep_length {p : Char → Bool} {s run r : List Char}
    (h : reqRunStep p s = some (run, r)) : r.length < s.length := by
  match s with
  | [] => simp [reqRunStep] at h
  | d :: ds =>
    simp only [reqRunStep] at h
    split at h
    · simp at h
    · rename_i hne
      by_cases hp : p d
      · simp only [Option.some.injEq, Prod.mk.injEq] at h
        have : (d :: ds).dropWhile p = ds.dropWhile p := by
          simp [List.dropWhile_cons, hp]
        have hlen := dropWhile_length_le p ds
        rw [this] at h
        rw [← h.2] at *
        simp
        omega
      · exfalso
        apply hne
        simp [List.takeWhile_cons, hp]

/-- Attempt of the header regex at the current position: an at sign, a
nonempty run of word characters, an open brace, a nonempty run of
non-comma characters, a comma.  Both runs are maximal-munch since the
character that must follow each run is excluded from its class. -/
def matchHeader (s : List Char) : Option (List Char × List Char × List Char) :=
  match reqCharStep '@' s with
  | none => none
  | some r1 =>
    match reqRunStep isWordChar r1 with
    | none => none
    | some (t, r2) =>
      match reqCharStep '{' r2 with
      | none => none
      | some r3 =>
        match reqRunStep (fun d => d != ',') r3 with
        | none => none
        | some (k, r4) =>
          match reqCharStep ',' r4 with
          | none => none
          | some r5 => some (t, k, r5)

theorem matchHeader_length {s t k rest : List Char}
    (h : matchHeader s = some (t, k, rest)) : rest.length < s.length := by
  simp only [matchHeader] at h
  split at h
  · simp at h
  · rename_i r1 e1
    split at h
    · simp at h
    · rename_i t2 r2 e2
      split at h
      · simp at h
      · rename_i r3 e3
        split at h
        · simp at h
        · rename_i k2 r4 e4
          split at h
          · simp at h
          · rename_i r5 e5
            simp only [Option.some.injEq, Prod.mk.injEq] at h
            have l1 := reqCharStep_length e1
            have l2 := reqRunStep_length e2
            have l3 := reqCharStep_length e3
            have l4 := reqRunStep_length e4
            have l5 := reqCharStep_length e5
            rw [← h.2.2] at *
            omega

/-- The global-replace scanner generic in the match attempt: at each
position try the regex; on a match emit its replacement and resume after
the consumed text, otherwise emit one character and advance.  Replacements
are computed from the original text only, as in a JavaScript global
replace.  The fuel argument makes the recursion structural; it is always
instantiated to the input length, which the scan can never exhaust since
every match consumes at least one character. -/
def scanGo (m : List Char → Option (List Char × List Char)) : Nat → List Char → List Char
  | _, [] => []
  | 0, s => s
  | fuel + 1, c :: cs =>
    match m (c :: cs) with
    | some (repl, rest) => repl ++ scanGo m fuel rest
    | none => c :: scanGo m fuel cs

/-- A whole global replace driven by the match attempt m. -/
def scanRepl (m : List Char → Option (List Char × List Char)) (s : List Char) : List Char :=
  scanGo m s.length s

/-- A match attempt consumes at least one character. -/
def Consuming (m : List Char → Option (List Char × List Char)) : Prop :=
  ∀ s repl rest, m s = some (repl, rest) → rest.length < s.length

theorem scanGo_mono {m : List Char → Option (List Char × List Char)} (hm : Consuming m) :
    ∀ (f1 : Nat) (s : List Char) (f2 : Nat), s.length ≤ f1 → s.length ≤ f2 →
      scanGo m f1 s = scanGo m f2 s := by
  intro f1
  induction f1 with
  | zero =>
    intro s f2 h1 _
    have : s = [] := List.eq_nil_of_length_eq_zero (Nat.le_zero.mp h1)
    subst this
    cases f2 <;> rfl
  | succ f1 ih =>
    intro s f2 h1 h2
    match s with
    | [] => cases f2 <;> rfl
    | c :: cs =>
      match f2 with
      | 0 => simp at h2
      | f2 + 1 =>
        simp only [scanGo]
        cases hmm : m (c :: cs) with
        | some pr =>
          match pr with
          | (repl, rest) =>
            have hlt := hm _ _ _ hmm
            simp only [List.length_cons] at hlt h1 h2
            have hr := ih rest f2 (by omega) (by omega)
            show repl ++ scanGo m f1 rest = repl ++ scanGo m f2 rest
            rw [hr]
        | none =>
          simp only [List.length_cons] at h1 h2
          have hr := ih cs f2 (by omega) (by omega)
          show c :: scanGo m f1 cs = c :: scanGo m f2 cs
          rw [hr]

theorem scanRepl_nil (m : List Char → Option (List Char × List Char)) : scanRepl m [] = [] :=
  rfl

theorem scanRepl_cons_match {m : List Char → Option (List Char × List Char)} (hm : Consuming m)
    {c : Char} {cs repl rest : List Char} (h : m (c :: cs) = some (repl, rest)) :
    scanRepl m (c :: cs) = repl ++ scanRepl m rest := by
  unfold scanRepl
  simp only [List.length_cons, scanGo, h]
  have hlt := hm _ _ _ h
  simp only [List.length_cons] at hlt
  rw [scanGo_mono hm cs.length rest rest.length (by omega) (by omega)]

theorem scanRepl_cons_none {m : List Char → Option (List Char × List Char)}
    {c : Char} {cs : List Char} (h : m (c :: cs) = none) :
    scanRepl m (c :: cs) = c :: scanRepl m cs := by
  unfold scanRepl
  simp only [List.length_cons, scanGo, h]

theorem scanRepl_through {m : List Char → Option (List Char × List Char)}
    {pre : List Char} (hfail : ∀ d ds, d ∈ pre → m (d :: ds) = none) (s : List Char) :
    scanRepl m (pre ++ s) = pre ++ scanRepl m s := by
  induction pre with
  | nil => simp
  | cons d ds ih =>
    rw [List.cons_append, scanRepl_cons_none (hfail d _ (by simp))]
    rw [ih (fun x xs hx => hfail x xs (by simp [hx]))]
    rfl

/-- The header rewrite pass generic in how the new type and key are
computed from the matched type and key: the replacement of the header
regex. -/
def headerRepl (nt : List Char → List Char → List Char) (nk : List Char → List Char)
    (s : List Char) : Option (List Char × List Char) :=
  match matchHeader s with
  | some (t, k, rest) => some ('@' :: nt t k ++ '{' :: nk k ++ [','], rest)
  | none => none

theorem headerRepl_consuming (nt : List Char → List Char → List Char)
    (nk : List Char → List Char) : Consuming (headerRepl nt nk) := by
  intro s repl rest h
  unfold headerRepl at h
  split at h
  · rename_i t k rest2 hm
    simp only [Option.some.injEq, Prod.mk.injEq] at h
    rw [← h.2] at *
    exact matchHeader_length hm
  · cases h

def rewriteHeadersGen (nt : List Char → List Char → List Char) (nk : List Char → List Char)
    (s : List Char) : List Char :=
  scanRepl (headerRepl nt nk) s

/-- New key computation of both files: the pinned key when truthy, else
the matched key. -/
def newKeyOf (pin : List Char → Option (List Char)) (k : List Char) : List Char :=
  jsOr (pin k) k

/-- New type computation of the TypeScript action: the type map applied to
the hint-or-empty-string, falling back to the matched type. -/
def mappedTypeTS (hint : List Char → Option (List Char)) (t k : List Char) : List Char :=
  jsOr (typeMapLookup (jsOr (hint k) [])) t

/-- New type computation of the Node script: the type map read at the
hint (a missing hint reads a missing property), falling back to the
matched type. -/
def mappedTypeMJS (hint : List Char → Option (List Char)) (t k : List Char) : List Char :=
  jsOr ((hint k).bind typeMapLookup) t

/-- Header rewrite of the TypeScript action (part_000, lines 148 to 152). -/
def rewriteHeadersTS (pin hint : List Char → Option (List Char)) (s : List Char) : List Char :=
  rewriteHeadersGen (mappedTypeTS hint) (newKeyOf pin) s

/-- Header rewrite of the Node script (mjs file, lines 162 to 166). -/
def rewriteHeadersMJS (pin hint : List Char → Option (List Char)) (s : List Char) : List Char :=
  rewriteHeadersGen (mappedTypeMJS hint) (newKeyOf pin) s

/-- Attempt of the field regex used by the journal rename and the acronym
protection: the field name case-insensitively, optional whitespace, an
equals sign, optional whitespace, an open brace, nonempty brace-free
content, a close brace.  Returns the consumed text up to and including the
open brace as it appeared, the content, and the rest after the close
brace. -/
def matchField (fname : List Char) (s : List Char) : Option (List Char × List Char × List Char) :=
  match stripCI fname s with
  | none => none
  | some (fv, r1) =>
    let sp1 := r1.takeWhile isWS
    match reqCharStep '=' (r1.dropWhile isWS) with
    | none => none
    | some r3 =>
      let sp2 := r3.takeWhile isWS
      match reqCharStep '{' (r3.dropWhile isWS) with
      | none => none
      | some r5 =>
        match reqRunStep (fun d => d != '}') r5 with
        | none => none
        | some (content, r6) =>
          match reqCharStep '}' r6 with
          | none => none
          | some r7 => some (fv ++ sp1 ++ '=' :: sp2 ++ ['{'], content, r7)

theorem stripCI_length {f s a r : List Char} (h : stripCI f s = some (a, r)) :
    r.length ≤ s.length := by
  induction f generalizing s a r with
  | nil =>
    simp only [stripCI, Option.some.injEq, Prod.mk.injEq] at h
    rw [← h.2]
  | cons c cs ih =>
    match s with
    | [] => simp [stripCI] at h
    | d :: ds =>
      simp only [stripCI] at h
      split at h
      · split at h
        · rename_i a2 r2 hrec
          simp only [Option.some.injEq, Prod.mk.injEq] at h
          have := ih hrec
          rw [← h.2] at *
          simp
          omega
        · exact absurd h (by simp)
      · exact absurd h (by simp)

theorem matchField_length {f s pre content rest : List Char}
    (h : matchField f s = some (pre, content, rest)) : rest.length < s.length := by
  simp only [matchField] at h
  split at h
  · simp at h
  · rename_i fv r1 hstrip
    have hs : r1.length ≤ s.length := stripCI_length hstrip
    have hw1 : (r1.dropWhile isWS).length ≤ r1.length := dropWhile_length_le _ _
    split at h
    · simp at h
    · rename_i r3 e3
      have l3 := reqCharStep_length e3
      have hw2 : (r3.dropWhile isWS).length ≤ r3.length := dropWhile_length_le _ _
      split at h
      · simp at h
      · rename_i r5 e5
        have l5 := reqCharStep_length e5
        split at h
        · simp at h
        · rename_i c2 r6 e6
          have l6 := reqRunStep_length e6
          split at h
          · simp at h
          · rename_i r7 e7
            have l7 := reqCharStep_length e7
            simp only [Option.some.injEq, Prod.mk.injEq] at h
            rw [← h.2.2] at *
            omega

/-- The replacement of the journal-field regex: re-emit the matched field
assignment as an organization assignment with normalized spacing and the
content verbatim. -/
def journalRepl (s : List Char) : Option (List Char × List Char) :=
  match matchField ("journal".data) s with
  | some (_, content, rest) => some ("organization = \x7b".data ++ content ++ ['}'], rest)
  | none => none

theorem journalRepl_consuming : Consuming journalRepl := by
  intro s repl rest h
  unfold journalRepl at h
  split at h
  · rename_i pre content rest2 hm
    simp only [Option.some.injEq, Prod.mk.injEq] at h
    rw [← h.2] at *
    exact matchField_length hm
  · cases h

/-- The journal rename pass (pass 2 of both files). -/
def renameJournal (s : List Char) : List Char :=
  scanRepl journalRepl s

/-- Head of the remaining input is not a word character (or there is no
remaining input): the trailing word-boundary test of the acronym regex. -/
def noWordAhead : List Char → Bool
  | [] => true
  | d :: _ => !isWordChar d

/-- The inner acronym replace on a field content: wrap every maximal run
of two or more uppercase letters delimited by word boundaries in one extra
brace pair.  The flag records whether the previous character was a word
character; a run whose boundary test fails is emitted unchanged and
scanning resumes inside it, which can never produce a later match within
the same run.  The fuel is always the input length and cannot run out. -/
def pwGo : Bool → Nat → List Char → List Char
  | _, _, [] => []
  | _, 0, s => s
  | prevWord, fuel + 1, c :: cs =>
    if !prevWord && isUpperAZ c then
      if 2 ≤ (c :: cs.takeWhile isUpperAZ).length ∧ noWordAhead (cs.dropWhile isUpperAZ) = true then
        '{' :: '{' :: ((c :: cs.takeWhile isUpperAZ) ++ '}' :: '}' :: pwGo true fuel (cs.dropWhile isUpperAZ))
      else c :: pwGo true fuel cs
    else c :: pwGo (isWordChar c) fuel cs

/-- The acronym replace from a given boundary state. -/
def protectWordsF (prevWord : Bool) (s : List Char) : List Char := pwGo prevWord s.length s

/-- The acronym replace applied to a whole content string, which starts at
a word boundary. -/
def protectWords (content : List Char) : List Char := protectWordsF false content

theorem pwGo_mono : ∀ (f1 : Nat) (pw : Bool) (s : List Char) (f2 : Nat),
    s.length ≤ f1 → s.length ≤ f2 → pwGo pw f1 s = pwGo pw f2 s := by
  intro f1
  induction f1 with
  | zero =>
    intro pw s f2 h1 _
    have : s = [] := List.eq_nil_of_length_eq_zero (Nat.le_zero.mp h1)
    subst this
    cases f2 <;> rfl
  | succ f1 ih =>
    intro pw s f2 h1 h2
    match s with
    | [] => cases f2 <;> rfl
    | c :: cs =>
      match f2 with
      | 0 => simp at h2
      | f2 + 1 =>
        simp only [pwGo]
        have hd : (cs.dropWhile isUpperAZ).length ≤ cs.length := dropWhile_length_le _ _
        simp only [List.length_cons] at h1 h2
        rw [ih true cs f2 (by omega) (by omega),
          ih true (cs.dropWhile isUpperAZ) f2 (by omega) (by omega),
          ih (isWordChar c) cs f2 (by omega) (by omega)]

theorem protectWordsF_nil (pw : Bool) : protectWordsF pw [] = [] := rfl

theorem protectWordsF_cons_skip {pw : Bool} {c : Char} (cs : List Char)
    (h : (!pw && isUpperAZ c) = false) :
    protectWordsF pw (c :: cs) = c :: protectWordsF (isWordChar c) cs := by
  unfold protectWordsF
  simp only [List.length_cons, pwGo, h]
  rfl

theorem protectWordsF_cons_wrap {c : Char} (cs : List Char) (hup : isUpperAZ c = true)
    (hcond : 2 ≤ (c :: cs.takeWhile isUpperAZ).length ∧ noWordAhead (cs.dropWhile isUpperAZ) = true) :
    protectWordsF false (c :: cs) =
      '{' :: '{' :: ((c :: cs.takeWhile isUpperAZ) ++ '}' :: '}' ::
        protectWordsF true (cs.dropWhile isUpperAZ)) := by
  have hcond2 : 2 ≤ (cs.takeWhile isUpperAZ).length + 1 ∧
      noWordAhead (cs.dropWhile isUpperAZ) = true := by
    simpa using hcond
  unfold protectWordsF
  simp only [List.length_cons, pwGo, hup, Bool.not_false, Bool.true_and, ite_true, if_pos hcond2]
  rw [pwGo_mono cs.length true (cs.dropWhile isUpperAZ) (cs.dropWhile isUpperAZ).length
    (dropWhile_length_le _ _) (Nat.le_refl _)]

theorem protectWordsF_cons_noWrap {c : Char} (cs : List Char) (hup : isUpperAZ c = true)
    (hcond : ¬ (2 ≤ (c :: cs.takeWhile isUpperAZ).length ∧ noWordAhead (cs.dropWhile isUpperAZ) = true)) :
    protectWordsF false (c :: cs) = c :: protectWordsF true cs := by
  have hcond2 : ¬ (2 ≤ (cs.takeWhile isUpperAZ).length + 1 ∧
      noWordAhead (cs.dropWhile isUpperAZ) = true) := by
    simpa using hcond
  unfold protectWordsF
  simp only [List.length_cons, pwGo, hup, Bool.not_false, Bool.true_and, ite_true, if_neg hcond2]

/-- The replacement of a field pass of protectCapitalsInFields: keep the
matched prefix as it appeared and wrap acronyms in the content. -/
def fieldRepl (fname : List Char) (s : List Char) : Option (List Char × List Char) :=
  match matchField fname s with
  | some (pre, content, rest) => some (pre ++ protectWords content ++ ['}'], rest)
  | none => none

theorem fieldRepl_consuming (fname : List Char) : Consuming (fieldRepl fname) := by
  intro s repl rest h
  unfold fieldRepl at h
  split at h
  · rename_i pre content rest2 hm
    simp only [Option.some.injEq, Prod.mk.injEq] at h
    rw [← h.2] at *
    exact matchField_length hm
  · cases h

/-- One field pass of protectCapitalsInFields. -/
def protectField (fname : List Char) (s : List Char) : List Char :=
  scanRepl (fieldRepl fname) s

/-- protectCapitalsInFields of both files: the four field passes applied
in order. -/
def protectCapitalsInFields (s : List Char) : List Char :=
  (["title".data, "booktitle".data, "series".data, "number".data]).foldl
    (fun b f => protectField f b) s

def isBrace (c : Char) : Bool := c = '{' || c = '}'

/-- A single-depth brace group minus its opening brace: a run of
non-brace characters that must be followed by a close brace.  Returns the
run and the rest after the close brace. -/
def braceChunk (cs : List Char) : Option (List Char × List Char) :=
  match cs.dropWhile (fun d => !isBrace d) with
  | [] => none
  | d :: r2 =>
    if d = '}' then some (cs.takeWhile (fun d => !isBrace d), r2) else none

theorem braceChunk_length {cs inner r2 : List Char} (h : braceChunk cs = some (inner, r2)) :
    r2.length < cs.length := by
  simp only [braceChunk] at h
  split at h
  · simp at h
  · rename_i d r3 heq
    have := dropWhile_length_le (fun d => !isBrace d) cs
    rw [heq] at this
    split at h
    · simp only [Option.some.injEq, Prod.mk.injEq] at h
      rw [← h.2] at *
      simp at this
      omega
    · simp at h

/-- The content group of the type-field regex followed by its closing
brace: a star over plain characters or single-depth brace groups, then a
close brace.  When the star stops at an open brace with no matching close
at depth one, backtracking cannot help (no earlier star boundary sits
before a close brace, or the star would have stopped there), so the whole
attempt fails.  Returns the content as written and the rest after the
closing brace. -/
def ptGo : Nat → List Char → Option (List Char × List Char)
  | _, [] => none
  | 0, _ => none
  | fuel + 1, c :: cs =>
    if c = '}' then some ([], cs)
    else if c = '{' then
      match braceChunk cs with
      | none => none
      | some (inner, r2) =>
        match ptGo fuel r2 with
        | some (v, r) => some ('{' :: inner ++ '}' :: v, r)
        | none => none
    else
      match ptGo fuel cs with
      | some (v, r) => some (c :: v, r)
      | none => none

def parseTypeVal (s : List Char) : Option (List Char × List Char) := ptGo s.length s

theorem ptGo_length : ∀ (fuel : Nat) {s v r : List Char},
    ptGo fuel s = some (v, r) → r.length < s.length := by
  intro fuel
  induction fuel with
  | zero =>
    intro s v r h
    match s with
    | [] => simp [ptGo] at h
    | c :: cs => simp [ptGo] at h
  | succ fuel ih =>
    intro s v r h
    match s with
    | [] => simp [ptGo] at h
    | c :: cs =>
      rw [ptGo] at h
      by_cases hc : c = '}'
      · rw [if_pos hc] at h
        simp only [Option.some.injEq, Prod.mk.injEq] at h
        rw [← h.2]
        simp
      · rw [if_neg hc] at h
        by_cases hb : c = '{'
        · rw [if_pos hb] at h
          split at h
          · simp at h
          · rename_i inner r2 heq
            have hr2 := braceChunk_length heq
            split at h
            · rename_i v2 r3 hrec
              simp only [Option.some.injEq, Prod.mk.injEq] at h
              have hlt := ih hrec
              rw [← h.2] at *
              simp
              omega
            · simp at h
        · rw [if_neg hb] at h
          split at h
          · rename_i v2 r3 hrec
            simp only [Option.some.injEq, Prod.mk.injEq] at h
            have hlt := ih hrec
            rw [← h.2] at *
            simp
            omega
          · simp at h

theorem parseTypeVal_length {s v r : List Char} (h : parseTypeVal s = some (v, r)) :
    r.length < s.length :=
  ptGo_length s.length h

theorem ptGo_mono : ∀ (f1 : Nat) (s : List Char) (f2 : Nat),
    s.length ≤ f1 → s.length ≤ f2 → ptGo f1 s = ptGo f2 s := by
  intro f1
  induction f1 with
  | zero =>
    intro s f2 h1 _
    have : s = [] := List.eq_nil_of_length_eq_zero (Nat.le_zero.mp h1)
    subst this
    cases f2 <;> rfl
  | succ f1 ih =>
    intro s f2 h1 h2
    match s with
    | [] => cases f2 <;> rfl
    | c :: cs =>
      match f2 with
      | 0 => simp at h2
      | f2 + 1 =>
        simp only [ptGo]
        simp only [List.length_cons] at h1 h2
        by_cases hc : c = '}'
        · simp [hc]
        · by_cases hb : c = '{'
          · simp only [if_neg hc, if_pos hb]
            cases heq : braceChunk cs with
            | none => simp [heq]
            | some pr =>
              obtain ⟨inner, r2⟩ := pr
              have := braceChunk_length heq
              simp only [heq]
              rw [ih r2 f2 (by omega) (by omega)]
          · simp only [if_neg hc, if_neg hb]
            rw [ih cs f2 (by omega) (by omega)]

theorem parseTypeVal_nil : parseTypeVal [] = none := rfl

theorem parseTypeVal_close (cs : List Char) : parseTypeVal ('}' :: cs) = some ([], cs) := by
  unfold parseTypeVal
  simp only [List.length_cons, ptGo, if_pos]

theorem parseTypeVal_open (cs : List Char) :
    parseTypeVal ('{' :: cs) =
      (match braceChunk cs with
       | none => none
       | some (inner, r2) =>
         match parseTypeVal r2 with
         | some (v, r) => some ('{' :: inner ++ '}' :: v, r)
         | none => none) := by
  unfold parseTypeVal
  simp only [List.length_cons, ptGo, if_neg (by decide : ¬ ('{' : Char) = '}'), if_pos rfl,
    if_true]
  cases heq : braceChunk cs with
  | none => simp [heq]
  | some pr =>
    obtain ⟨inner, r2⟩ := pr
    have := braceChunk_length heq
    simp only [heq]
    rw [ptGo_mono cs.length r2 r2.length (by omega) (by omega)]

theorem parseTypeVal_plain {c : Char} (cs : List Char) (hc : c ≠ '}') (hb : c ≠ '{') :
    parseTypeVal (c :: cs) =
      (match parseTypeVal cs with
       | some (v, r) => some (c :: v, r)
       | none => none) := by
  unfold parseTypeVal
  simp only [List.length_cons, ptGo, if_neg hc, if_neg hb]

/-- The membership test for the one-level-nested content language of the
type-field regex, mirroring parseTypeVal on a standalone content string:
no bare close brace at the top level and every open brace closed at depth
one.  The fuel is always the input length and cannot run out. -/
def olGo : Nat → List Char → Bool
  | _, [] => true
  | 0, _ => false
  | fuel + 1, c :: cs =>
    if c = '}' then false
    else if c = '{' then
      match braceChunk cs with
      | none => false
      | some (_, r2) => olGo fuel r2
    else olGo fuel cs

def oneLevelOK (s : List Char) : Bool := olGo s.length s

theorem olGo_mono : ∀ (f1 : Nat) (s : List Char) (f2 : Nat),
    s.length ≤ f1 → s.length ≤ f2 → olGo f1 s = olGo f2 s := by
  intro f1
  induction f1 with
  | zero =>
    intro s f2 h1 _
    have : s = [] := List.eq_nil_of_length_eq_zero (Nat.le_zero.mp h1)
    subst this
    cases f2 <;> rfl
  | succ f1 ih =>
    intro s f2 h1 h2
    match s with
    | [] => cases f2 <;> rfl
    | c :: cs =>
      match f2 with
      | 0 => simp at h2
      | f2 + 1 =>
        simp only [olGo]
        simp only [List.length_cons] at h1 h2
        by_cases hc : c = '}'
        · simp [hc]
        · by_cases hb : c = '{'
          · simp only [if_neg hc, if_pos hb]
            cases heq : braceChunk cs with
            | none => simp [heq]
            | some pr =>
              obtain ⟨inner, r2⟩ := pr
              have := braceChunk_length heq
              simp only [heq]
              rw [ih r2 f2 (by omega) (by omega)]
          · simp only [if_neg hc, if_neg hb]
            rw [ih cs f2 (by omega) (by omega)]

theorem oneLevelOK_nil : oneLevelOK [] = true := rfl

theorem oneLevelOK_open (cs : List Char) :
    oneLevelOK ('{' :: cs) =
      (match braceChunk cs with
       | none => false
       | some (_, r2) => oneLevelOK r2) := by
  unfold oneLevelOK
  simp only [List.length_cons, olGo, if_neg (by decide : ¬ ('{' : Char) = '}'), if_pos rfl,
    if_true]
  cases heq : braceChunk cs with
  | none => simp [heq]
  | some pr =>
    obtain ⟨inner, r2⟩ := pr
    have := braceChunk_length heq
    simp only [heq]
    rw [olGo_mono cs.length r2 r2.length (by omega) (by omega)]

theorem oneLevelOK_plain {c : Char} (cs : List Char) (hc : c ≠ '}') (hb : c ≠ '{') :
    oneLevelOK (c :: cs) = oneLevelOK cs := by
  unfold oneLevelOK
  simp only [List.length_cons, olGo, if_neg hc, if_neg hb]

/-- Strip every brace character, the first cleaning replace. -/
def stripBraces (l : List Char) : List Char := l.filter (fun c => !isBrace c)

/-- Collapse each whitespace run to one space, the second cleaning
replace.  The fuel is always the input length and cannot run out. -/
def cwGo : Nat → List Char → List Char
  | _, [] => []
  | 0, s => s
  | fuel + 1, c :: cs =>
    if isWS c then ' ' :: cwGo fuel (cs.dropWhile isWS) else c :: cwGo fuel cs

def collapseWS (l : List Char) : List Char := cwGo l.length l

/-- The cleaned content of a type field: braces stripped, whitespace runs
collapsed, ends trimmed. -/
def cleanContent (v : List Char) : List Char := trimWS (collapseWS (stripBraces v))

/-- Attempt of the type-field regex at a line-start position, with the
leading newline-or-anchor group already handled by the caller: optional
whitespace (the indent group), the word type case-insensitively, optional
whitespace, an equals sign, optional whitespace, an open brace, the
one-level content, the close brace, then optional whitespace and an
optional comma (the trailing group, re-emitted verbatim).  Returns the
indent, the raw content, the trailing group and the rest. -/
def matchTypeField (s : List Char) : Option (List Char × List Char × List Char × List Char) :=
  let ind := s.takeWhile isWS
  match stripCI ("type".data) (s.dropWhile isWS) with
  | none => none
  | some (_, r2) =>
    match reqCharStep '=' (r2.dropWhile isWS) with
    | none => none
    | some r4 =>
      match reqCharStep '{' (r4.dropWhile isWS) with
      | none => none
      | some r6 =>
        match parseTypeVal r6 with
        | none => none
        | some (v, r7) =>
          let w := r7.takeWhile isWS
          match r7.dropWhile isWS with
          | [] => some (ind, v, w, [])
          | d :: r9 =>
            if d = ',' then some (ind, v, w ++ [','], r9)
            else some (ind, v, w, d :: r9)

theorem matchTypeField_length {s ind v g4 rest : List Char}
    (h : matchTypeField s = some (ind, v, g4, rest)) : rest.length < s.length := by
  simp only [matchTypeField] at h
  split at h
  · simp at h
  · rename_i a2 r2 hstrip
    have hw0 : (s.dropWhile isWS).length ≤ s.length := dropWhile_length_le _ _
    have hs : r2.length ≤ (s.dropWhile isWS).length := stripCI_length hstrip
    have hw2 : (r2.dropWhile isWS).length ≤ r2.length := dropWhile_length_le _ _
    split at h
    · simp at h
    · rename_i r4 e4
      have l4 := reqCharStep_length e4
      have hw4 : (r4.dropWhile isWS).length ≤ r4.length := dropWhile_length_le _ _
      split at h
      · simp at h
      · rename_i r6 e6
        have l6 := reqCharStep_length e6
        split at h
        · simp at h
        · rename_i v2 r7 e7
          have l7 := parseTypeVal_length e7
          have hw7 : (r7.dropWhile isWS).length ≤ r7.length := dropWhile_length_le _ _
          split at h
          · rename_i e8
            rw [e8] at hw7
            simp only [Option.some.injEq, Prod.mk.injEq] at h
            rw [← h.2.2.2] at *
            simp at hw7 ⊢
            omega
          · rename_i d r9 e8
            rw [e8] at hw7
            split at h
            all_goals
              simp only [Option.some.injEq, Prod.mk.injEq] at h
              rw [← h.2.2.2] at *
              simp at hw7 ⊢
              omega

/-- Whether the position after a match of the type-field regex is a line
start: the last re-emitted character of the trailing group is a line
terminator.  An empty trailing group means the match ended at the close
brace, which is not a line terminator. -/
def afterG4LS (g4 : List Char) : Bool :=
  match g4.getLast? with
  | some c => isLineTerm c
  | none => false

/-- The scanner of the type-field cleanup pass.  The flag says whether the
current position is a line start (the multiline start anchor holds).  At a
line start the anchor alternative of the leading group applies; elsewhere
a literal newline can be consumed as that group.  A successful match
re-emits the leading group and indent verbatim, normalizes the field name
and spacing, emits the cleaned content, and re-emits the trailing group
verbatim. -/
def ctGo : Bool → Nat → List Char → List Char
  | _, _, [] => []
  | _, 0, s => s
  | atLS, fuel + 1, c :: cs =>
    if atLS then
      match matchTypeField (c :: cs) with
      | some (ind, v, g4, rest) =>
        ind ++ "type = \x7b".data ++ cleanContent v ++ '}' :: (g4 ++ ctGo (afterG4LS g4) fuel rest)
      | none => c :: ctGo (isLineTerm c) fuel cs
    else if c = '\n' then
      match matchTypeField cs with
      | some (ind, v, g4, rest) =>
        '\n' :: (ind ++ "type = \x7b".data ++ cleanContent v ++ '}' :: (g4 ++ ctGo (afterG4LS g4) fuel rest))
      | none => '\n' :: ctGo true fuel cs
    else c :: ctGo (isLineTerm c) fuel cs

/-- The type-field cleanup scan from a given line-start state. -/
def cleanTypeGoF (atLS : Bool) (s : List Char) : List Char := ctGo atLS s.length s

theorem ctGo_mono : ∀ (f1 : Nat) (atLS : Bool) (s : List Char) (f2 : Nat),
    s.length ≤ f1 → s.length ≤ f2 → ctGo atLS f1 s = ctGo atLS f2 s := by
  intro f1
  induction f1 with
  | zero =>
    intro atLS s f2 h1 _
    have : s = [] := List.eq_nil_of_length_eq_zero (Nat.le_zero.mp h1)
    subst this
    cases f2 <;> rfl
  | succ f1 ih =>
    intro atLS s f2 h1 h2
    match s with
    | [] => cases f2 <;> rfl
    | c :: cs =>
      match f2 with
      | 0 => simp at h2
      | f2 + 1 =>
        simp only [List.length_cons] at h1 h2
        cases atLS with
        | true =>
          simp only [ctGo, if_pos rfl, if_true]
          cases heq : matchTypeField (c :: cs) with
          | none =>
            simp only [heq]
            rw [ih (isLineTerm c) cs f2 (by omega) (by omega)]
          | some q =>
            obtain ⟨ind, v, g4, rest⟩ := q
            have hlen := matchTypeField_length heq
            simp only [List.length_cons] at hlen
            simp only [heq]
            rw [ih (afterG4LS g4) rest f2 (by omega) (by omega)]
        | false =>
          simp only [ctGo, Bool.false_eq_true, if_false]
          by_cases hc : c = '\n'
          · subst hc
            simp only [if_pos rfl, if_true]
            cases heq : matchTypeField cs with
            | none =>
              simp only [heq]
              rw [ih true cs f2 (by omega) (by omega)]
            | some q =>
              obtain ⟨ind, v, g4, rest⟩ := q
              have hlen := matchTypeField_length heq
              simp only [heq]
              rw [ih (afterG4LS g4) rest f2 (by omega) (by omega)]
          · simp only [if_neg hc]
            rw [ih (isLineTerm c) cs f2 (by omega) (by omega)]

/-- cleanTypeField of both files: the scan starts at a line start. -/
def cleanTypeField (s : List Char) : List Char := cleanTypeGoF true s

theorem cleanTypeGoF_nil (atLS : Bool) : cleanTypeGoF atLS [] = [] := rfl

theorem cleanTypeGoF_true_match {c : Char} {cs ind v g4 rest : List Char}
    (h : matchTypeField (c :: cs) = some (ind, v, g4, rest)) :
    cleanTypeGoF true (c :: cs) =
      ind ++ "type = \x7b".data ++ cleanContent v ++ '}' ::
        (g4 ++ cleanTypeGoF (afterG4LS g4) rest) := by
  unfold cleanTypeGoF
  simp only [List.length_cons, ctGo, if_pos rfl, if_true, h]
  have hlen := matchTypeField_length h
  simp only [List.length_cons] at hlen
  rw [ctGo_mono cs.length (afterG4LS g4) rest rest.length (by omega) (by omega)]

theorem cleanTypeGoF_true_none {c : Char} {cs : List Char}
    (h : matchTypeField (c :: cs) = none) :
    cleanTypeGoF true (c :: cs) = c :: cleanTypeGoF (isLineTerm c) cs := by
  unfold cleanTypeGoF
  simp only [List.length_cons, ctGo, if_pos rfl, if_true, h]

theorem cleanTypeGoF_nl_match {cs ind v g4 rest : List Char}
    (h : matchTypeField cs = some (ind, v, g4, rest)) :
    cleanTypeGoF false ('\n' :: cs) =
      '\n' :: (ind ++ "type = \x7b".data ++ cleanContent v ++ '}' ::
        (g4 ++ cleanTypeGoF (afterG4LS g4) rest)) := by
  unfold cleanTypeGoF
  simp only [List.length_cons, ctGo, Bool.false_eq_true, if_false, if_pos rfl, if_true, h]
  have hlen := matchTypeField_length h
  rw [ctGo_mono cs.length (afterG4LS g4) rest rest.length (by omega) (by omega)]

theorem cleanTypeGoF_nl_none {cs : List Char} (h : matchTypeField cs = none) :
    cleanTypeGoF false ('\n' :: cs) = '\n' :: cleanTypeGoF true cs := by
  unfold cleanTypeGoF
  simp only [List.length_cons, ctGo, Bool.false_eq_true, if_false, if_pos rfl, if_true, h]

theorem cleanTypeGoF_false_other {c : Char} (cs : List Char) (h : c ≠ '\n') :
    cleanTypeGoF false (c :: cs) = c :: cleanTypeGoF (isLineTerm c) cs := by
  unfold cleanTypeGoF
  simp only [List.length_cons, ctGo, Bool.false_eq_true, if_false, if_neg h]

/-- The four-pass rewrite pipeline of the TypeScript action. -/
def rewriteAllTS (pin hint : List Char → Option (List Char)) (s : List Char) : List Char :=
  cleanTypeField (protectCapitalsInFields (renameJournal (rewriteHeadersTS pin hint s)))

/-- The four-pass rewrite pipeline of the Node script. -/
def rewriteAllMJS (pin hint : List Char → Option (List Char)) (s : List Char) : List Char :=
  cleanTypeField (protectCapitalsInFields (renameJournal (rewriteHeadersMJS pin hint s)))

theorem typeMapLookup_empty : typeMapLookup [] = none := by decide

theorem mappedType_eq (hint : List Char → Option (List Char)) (t k : List Char) :
    mappedTypeTS hint t k = mappedTypeMJS hint t k := by
  unfold mappedTypeTS mappedTypeMJS
  cases h : hint k with
  | none => simp [jsOr, typeMapLookup_empty]
  | some v =>
    by_cases hv : v = []
    · simp [hv, jsOr, typeMapLookup_empty]
    · simp [jsOr, hv]

/-- Claim C9: the Node script and the TypeScript action implement the same
logic: for every entry list their index constructions agree, and for every
raw text and pair of index lookup functions their four-pass rewrite
pipelines agree.  The two sources differ textually in how the type hint is
fed to the type map (hint-or-empty-string versus plain property read), and
that difference is unobservable because the empty string is not a type-map
key. -/
theorem claim_C9 :
    (∀ items : List CSLItem, buildIndexesTS items = buildIndexesMJS items) ∧
    (∀ pin hint : List Char → Option (List Char), ∀ s : List Char,
      rewriteAllTS pin hint s = rewriteAllMJS pin hint s) := by
  constructor
  · intro items
    rfl
  · intro pin hint s
    unfold rewriteAllTS rewriteAllMJS rewriteHeadersTS rewriteHeadersMJS
    have he : mappedTypeTS hint = mappedTypeMJS hint := by
      funext t k
      exact mappedType_eq hint t k
    rw [he]

/-- A fixed entry used by the concrete pagination scenario. -/
def pageItem : CSLItem := ⟨some ("1/K".data), none, none⟩

/-- A server producing pages of sizes 100, 100, 100, 40 at offsets 0, 100,
200, 300, with a Total-Results header of 340. -/
def pagedServer : Nat → PageResp := fun start =>
  if start = 0 then ⟨.arr (List.replicate 100 pageItem), some 340⟩
  else if start = 100 then ⟨.arr (List.replicate 100 pageItem), some 340⟩
  else if start = 200 then ⟨.arr (List.replicate 100 pageItem), some 340⟩
  else if start = 300 then ⟨.arr (List.replicate 40 pageItem), some 340⟩
  else ⟨.other, some 340⟩

set_option maxRecDepth 4000 in
/-- Claim C3: one step of the pagination loop normalizes the page at the
current offset, reads the total from the Total-Results header once per
page with the page size as default, appends the page in order, stops when
the page is short of 100 or the accumulated count reaches the total, and
otherwise continues at the offset advanced by the page size; on page sizes
100, 100, 100, 40 the loop issues exactly the four requests 0, 100, 200,
300 and returns the concatenation of all pages. -/
theorem claim_C3 :
    (∀ (server : Nat → PageResp) (fuel start : Nat) (all : List CSLItem) (reqs : List Nat),
      fetchLoop server (fuel + 1) start all reqs =
        (let page := normalizeItems (server start).body
         let total := ((server start).totalResults).getD page.length
         if page.length < 100 ∨ total ≤ (all ++ page).length
         then (reqs ++ [start], all ++ page)
         else fetchLoop server fuel (start + page.length) (all ++ page) (reqs ++ [start]))) ∧
    fetchAllParentsCSL pagedServer 10 = ([0, 100, 200, 300], List.replicate 340 pageItem) := by
  constructor
  · intro server fuel start all reqs
    rfl
  · rfl

theorem trimWS_nil : trimWS [] = [] := by decide

theorem assembleBibSpec_cons (p : List Char) (ps : List (List Char)) :
    assembleBibSpec (p :: ps) =
      (if trimWS p = [] then [] else trimWS p ++ ['\n']) ++ assembleBibSpec ps := by
  unfold assembleBibSpec
  by_cases hp : trimWS p = []
  · simp [hp, List.filter_cons]
  · simp [hp, List.filter_cons, List.isEmpty_iff]

theorem assembleBib_invariant (parts : List (List Char)) :
    ∀ acc : List Char, acc = [] ∨ acc.getLast? = some '\n' →
      parts.foldl assembleBibStep acc = acc ++ assembleBibSpec parts := by
  induction parts with
  | nil =>
    intro acc _
    simp [assembleBibSpec]
  | cons p ps ih =>
    intro acc hacc
    simp only [List.foldl_cons]
    by_cases hp : trimWS p = []
    · have hstep : assembleBibStep acc p = acc := by
        unfold assembleBibStep
        rw [if_neg]
        intro hcon
        exact hcon.2 hp
      rw [hstep, ih acc hacc, assembleBibSpec_cons, if_pos hp]
      simp
    · have hpne : p ≠ [] := by
        intro hnil
        apply hp
        rw [hnil]
        exact trimWS_nil
      have hstep : assembleBibStep acc p = acc ++ (trimWS p ++ ['\n']) := by
        unfold assembleBibStep
        rw [if_pos ⟨hpne, hp⟩]
        rcases hacc with h0 | h0
        · rw [if_neg]
          · rw [List.append_assoc]
          · intro hcon
            exact hcon.1 h0
        · rw [if_neg]
          · rw [List.append_assoc]
          · intro hcon
            exact hcon.2 h0
      rw [hstep, ih _ (Or.inr (by rw [← List.append_assoc]; exact List.getLast?_concat _)),
        assembleBibSpec_cons, if_neg hp]
      simp

/-- Claim C7: the assembled raw text is the concatenation, in fetch order,
of each nonempty (after trimming) block trimmed and followed by one
newline, whitespace-only blocks contributing nothing; consequently the
whole text is empty or ends in a newline. -/
theorem claim_C7 :
    (∀ parts : List (List Char), assembleBib parts = assembleBibSpec parts) ∧
    (∀ parts : List (List Char),
      assembleBib parts = [] ∨ (assembleBib parts).getLast? = some '\n') := by
  have hmain : ∀ parts : List (List Char), assembleBib parts = assembleBibSpec parts := by
    intro parts
    unfold assembleBib
    rw [assembleBib_invariant parts [] (Or.inl rfl)]
    simp
  refine ⟨hmain, ?_⟩
  intro parts
  rw [hmain]
  induction parts with
  | nil => left; simp [assembleBibSpec]
  | cons p ps ih =>
    rw [assembleBibSpec_cons]
    by_cases hp : trimWS p = []
    · simpa [hp] using ih
    · right
      rcases ih with h0 | h0
      · rw [if_neg hp, h0]
        simpa using List.getLast?_concat (trimWS p)
      · rw [if_neg hp, List.getLast?_append, h0]
        rfl

theorem stripCI_append {f a : List Char} (r : List Char)
    (h : a.map toLowerA = f.map toLowerA) : stripCI f (a ++ r) = some (a, r) := by
  induction f generalizing a with
  | nil =>
    have : a = [] := by
      cases a with
      | nil => rfl
      | cons x xs => simp at h
    subst this
    simp [stripCI]
  | cons c cs ih =>
    cases a with
    | nil => simp at h
    | cons d ds =>
      simp only [List.map_cons, List.cons.injEq] at h
      simp only [List.cons_append, stripCI, if_pos h.1]
      rw [show ds.append r = ds ++ r from rfl, ih h.2]

theorem stripCI_head_fail {g : Char} (gs : List Char) {c : Char} (cs : List Char)
    (h : toLowerA c ≠ toLowerA g) : stripCI (g :: gs) (c :: cs) = none := by
  simp [stripCI, h]

theorem run_split {p : Char → Bool} {xs : List Char} (h : ∀ x ∈ xs, p x = true)
    {y : Char} (hy : p y = false) (ys : List Char) :
    (xs ++ y :: ys).takeWhile p = xs ∧ (xs ++ y :: ys).dropWhile p = y :: ys := by
  constructor
  · rw [List.takeWhile_append_of_pos h, List.takeWhile_cons_of_neg (by simp [hy])]
    simp
  · rw [List.dropWhile_append_of_pos h, List.dropWhile_cons_of_neg (by simp [hy])]

theorem reqCharStep_cons (c : Char) (r : List Char) : reqCharStep c (c :: r) = some r := by
  simp [reqCharStep]

theorem reqCharStep_ne {c d : Char} (r : List Char) (h : d ≠ c) :
    reqCharStep c (d :: r) = none := by
  simp [reqCharStep, h]

theorem reqRunStep_split {p : Char → Bool} {xs : List Char} (hne : xs ≠ [])
    (h : ∀ x ∈ xs, p x = true) {y : Char} (hy : p y = false) (ys : List Char) :
    reqRunStep p (xs ++ y :: ys) = some (xs, y :: ys) := by
  unfold reqRunStep
  rw [(run_split h hy ys).1, (run_split h hy ys).2, if_neg hne]

theorem matchHeader_build {t k : List Char} (rest : List Char)
    (ht : t ≠ []) (htw : ∀ c ∈ t, isWordChar c = true)
    (hk : k ≠ []) (hkc : ∀ c ∈ k, (c != ',') = true) :
    matchHeader ('@' :: (t ++ '{' :: (k ++ ',' :: rest))) = some (t, k, rest) := by
  have e1 : reqCharStep '@' ('@' :: (t ++ '{' :: (k ++ ',' :: rest))) =
      some (t ++ '{' :: (k ++ ',' :: rest)) := reqCharStep_cons _ _
  have e2 : reqRunStep isWordChar (t ++ '{' :: (k ++ ',' :: rest)) =
      some (t, '{' :: (k ++ ',' :: rest)) := reqRunStep_split ht htw (by decide) _
  have e3 : reqCharStep '{' ('{' :: (k ++ ',' :: rest)) = some (k ++ ',' :: rest) :=
    reqCharStep_cons _ _
  have e4 : reqRunStep (fun d => d != ',') (k ++ ',' :: rest) = some (k, ',' :: rest) :=
    reqRunStep_split hk hkc (by decide) _
  have e5 : reqCharStep ',' (',' :: rest) = some rest := reqCharStep_cons _ _
  unfold matchHeader
  rw [e1]
  simp only [e2, e3, e4, e5]

theorem matchHeader_head_fail {c : Char} (cs : List Char) (h : c ≠ '@') :
    matchHeader (c :: cs) = none := by
  unfold matchHeader
  rw [reqCharStep_ne cs h]

theorem headerRepl_head_fail (nt : List Char → List Char → List Char)
    (nk : List Char → List Char) {c : Char} (cs : List Char) (h : c ≠ '@') :
    headerRepl nt nk (c :: cs) = none := by
  unfold headerRepl
  rw [matchHeader_head_fail cs h]

/-- A case variant of a pattern: same characters up to ASCII lowering. -/
def ciMatches (a f : List Char) : Prop := a.map toLowerA = f.map toLowerA

instance (a f : List Char) : Decidable (ciMatches a f) :=
  inferInstanceAs (Decidable (a.map toLowerA = f.map toLowerA))

theorem matchField_build {fname fv sp1 sp2 content : List Char} (post : List Char)
    (hf : ciMatches fv fname)
    (hsp1 : ∀ c ∈ sp1, isWS c = true) (hsp2 : ∀ c ∈ sp2, isWS c = true)
    (hc : content ≠ []) (hcc : ∀ c ∈ content, (c != '}') = true) :
    matchField fname (fv ++ (sp1 ++ '=' :: (sp2 ++ '{' :: (content ++ '}' :: post)))) =
      some (fv ++ sp1 ++ '=' :: sp2 ++ ['{'], content, post) := by
  have e1 : stripCI fname (fv ++ (sp1 ++ '=' :: (sp2 ++ '{' :: (content ++ '}' :: post)))) =
      some (fv, sp1 ++ '=' :: (sp2 ++ '{' :: (content ++ '}' :: post))) := stripCI_append _ hf
  have r1 := run_split hsp1 (show isWS '=' = false by decide)
    (sp2 ++ '{' :: (content ++ '}' :: post))
  have e3 : reqCharStep '=' ('=' :: (sp2 ++ '{' :: (content ++ '}' :: post))) =
      some (sp2 ++ '{' :: (content ++ '}' :: post)) := reqCharStep_cons _ _
  have r2 := run_split hsp2 (show isWS '{' = false by decide) (content ++ '}' :: post)
  have e5 : reqCharStep '{' ('{' :: (content ++ '}' :: post)) =
      some (content ++ '}' :: post) := reqCharStep_cons _ _
  have e6 : reqRunStep (fun d => d != '}') (content ++ '}' :: post) =
      some (content, '}' :: post) := reqRunStep_split hc hcc (by decide) _
  have e7 : reqCharStep '}' ('}' :: post) = some post := reqCharStep_cons _ _
  unfold matchField
  rw [e1]
  simp only [r1.1, r1.2, e3, r2.1, r2.2, e5, e6, e7]

theorem matchField_head_fail {g : Char} {gs : List Char} {c : Char} (cs : List Char)
    (h : toLowerA c ≠ toLowerA g) : matchField (g :: gs) (c :: cs) = none := by
  unfold matchField
  rw [stripCI_head_fail gs cs h]

theorem journalRepl_head_fail {c : Char} (cs : List Char) (h : toLowerA c ≠ 'j') :
    journalRepl (c :: cs) = none := by
  have h2 : toLowerA c ≠ toLowerA 'j' := by
    rw [show toLowerA 'j' = 'j' from by decide]
    exact h
  unfold journalRepl
  rw [matchField_head_fail cs h2]

theorem journalRepl_build {fv sp1 sp2 content : List Char} (post : List Char)
    (hf : ciMatches fv ("journal".data))
    (hsp1 : ∀ c ∈ sp1, isWS c = true) (hsp2 : ∀ c ∈ sp2, isWS c = true)
    (hc : content ≠ []) (hcc : ∀ c ∈ content, (c != '}') = true) :
    journalRepl (fv ++ (sp1 ++ '=' :: (sp2 ++ '{' :: (content ++ '}' :: post)))) =
      some ("organization = \x7b".data ++ content ++ ['}'], post) := by
  unfold journalRepl
  rw [matchField_build post hf hsp1 hsp2 hc hcc]

/-- Claim C4 (amended): every journal field assignment with nonempty
brace-free content, the field name matched case-insensitively, is
re-emitted as organization = followed by the content in braces, verbatim
and with normalized spacing, regardless of surrounding record type; text
before the match is unchanged and scanning continues after it. -/
theorem claim_C4 :
    (∀ pre fv sp1 sp2 content post : List Char,
      (∀ c ∈ pre, toLowerA c ≠ 'j') → ciMatches fv ("journal".data) →
      (∀ c ∈ sp1, isWS c = true) → (∀ c ∈ sp2, isWS c = true) →
      content ≠ [] → (∀ c ∈ content, (c != '}') = true) →
      renameJournal (pre ++ (fv ++ (sp1 ++ '=' :: (sp2 ++ '{' :: (content ++ '}' :: post))))) =
        pre ++ ("organization = \x7b".data ++ content ++ '}' :: renameJournal post)) ∧
    renameJournal ("@book\x7bk,\n  journal = \x7bNature\x7d,\n\x7d".data) =
      "@book\x7bk,\n  organization = \x7bNature\x7d,\n\x7d".data ∧
    renameJournal ("JOURNAL=\x7bNature\x7d".data) = "organization = \x7bNature\x7d".data := by
  refine ⟨?_, by decide, by decide⟩
  intro pre fv sp1 sp2 content post hpre hf hsp1 hsp2 hc hcc
  unfold renameJournal
  rw [scanRepl_through (fun d ds hd => journalRepl_head_fail ds (hpre d hd))]
  cases fv with
  | nil => simp [ciMatches] at hf
  | cons d ds =>
    rw [List.cons_append,
      scanRepl_cons_match journalRepl_consuming
        (by rw [← List.cons_append]; exact journalRepl_build post hf hsp1 hsp2 hc hcc)]
    simp

/-- Claim C4 as stated is false on empty content: a journal field with
empty braces is not rewritten, because the content class of the regex
requires at least one character. -/
theorem claim_C4_counterexample :
    renameJournal ("journal = \x7b\x7d".data) = "journal = \x7b\x7d".data ∧
    renameJournal ("journal = \x7b\x7d".data) ≠ "organization = \x7b\x7d".data := by
  constructor
  · decide
  · decide

theorem claim_C4_witness :
    renameJournal ("x journal = \x7bNature\x7d!".data) =
      "x organization = \x7bNature\x7d!".data := by
  have h := claim_C4.1 ("x ".data) ("journal".data) ([' ']) ([' ']) ("Nature".data) ("!".data)
    (by decide) (by decide) (by decide) (by decide) (by decide) (by decide)
  rw [show ("x journal = \x7bNature\x7d!".data) =
    "x ".data ++ ("journal".data ++ ([' '] ++ '=' :: ([' '] ++ '{' ::
      ("Nature".data ++ '}' :: "!".data)))) from rfl]
  rw [h]
  decide

theorem typeMapLookup_ne_nil {h v : List Char} (hl : typeMapLookup h = some v) : v ≠ [] := by
  unfold typeMapLookup at hl
  cases hf : typeMapL.find? (fun e => e.1 == h) with
  | none => rw [hf] at hl; cases hl
  | some e =>
    rw [hf] at hl
    simp only [Option.map_some'] at hl
    injection hl with hv
    have hmem := List.mem_of_find?_eq_some hf
    have hall : ∀ e ∈ typeMapL, e.2 ≠ [] := by decide
    rw [← hv]
    exact hall e hmem

theorem mappedTypeTS_claim (hint : List Char → Option (List Char)) (t k : List Char) :
    mappedTypeTS hint t k = ((hint k).bind typeMapLookup).getD t := by
  rw [mappedType_eq]
  unfold mappedTypeMJS jsOr
  cases hb : (hint k).bind typeMapLookup with
  | none => rfl
  | some v =>
    have hv : v ≠ [] := by
      cases hh : hint k with
      | none => rw [hh] at hb; cases hb
      | some h2 =>
        rw [hh] at hb
        exact typeMapLookup_ne_nil hb
    simp [hv]

theorem newKeyOf_claim (pin : List Char → Option (List Char)) (k : List Char)
    (h : pin k ≠ some []) : newKeyOf pin k = (pin k).getD k := by
  unfold newKeyOf jsOr
  cases hp : pin k with
  | none => rfl
  | some p =>
    have hpne : p ≠ [] := by
      intro hh
      apply h
      rw [hp, hh]
    simp [hpne]

/-- Claim C1: a header of the form at-sign, word-character type, open
brace, non-comma key, comma is rewritten so that the key becomes the
pinned value when one exists (and is not the empty string, which the code
treats as absent) and stays unchanged otherwise, and the type becomes the
type map applied to the hint when the hint exists and is a type-map key
and stays as emitted otherwise; text before the header is unchanged and
scanning continues after the comma. -/
theorem claim_C1 :
    ∀ (pin hint : List Char → Option (List Char)) (pre t k rest : List Char),
    (∀ c ∈ pre, c ≠ '@') → t ≠ [] → (∀ c ∈ t, isWordChar c = true) →
    k ≠ [] → (∀ c ∈ k, (c != ',') = true) → pin k ≠ some [] →
    rewriteHeadersTS pin hint (pre ++ '@' :: (t ++ '{' :: (k ++ ',' :: rest))) =
      pre ++ '@' :: ((((hint k).bind typeMapLookup).getD t) ++
        '{' :: (((pin k).getD k) ++ ',' :: rewriteHeadersTS pin hint rest)) := by
  intro pin hint pre t k rest hpre ht htw hk hkc hpin
  unfold rewriteHeadersTS rewriteHeadersGen
  rw [scanRepl_through (fun d ds hd => headerRepl_head_fail _ _ ds (hpre d hd))]
  have hm : headerRepl (mappedTypeTS hint) (newKeyOf pin) ('@' :: (t ++ '{' :: (k ++ ',' :: rest))) =
      some ('@' :: mappedTypeTS hint t k ++ '{' :: newKeyOf pin k ++ [','], rest) := by
    unfold headerRepl
    rw [matchHeader_build rest ht htw hk hkc]
  rw [scanRepl_cons_match (headerRepl_consuming _ _) hm]
  rw [mappedTypeTS_claim, newKeyOf_claim pin k hpin]
  simp

def pinW : List Char → Option (List Char) :=
  fun k => if k = "KEY1".data then some ("Pinned1".data) else none

def hintW : List Char → Option (List Char) :=
  fun k => if k = "KEY1".data then some ("webpage".data) else none

theorem claim_C1_witness :
    rewriteHeadersTS pinW hintW ("x @webpage\x7bKEY1,y".data) =
      "x @online\x7bPinned1,y".data := by
  have h := claim_C1 pinW hintW ("x ".data) ("webpage".data) ("KEY1".data) ("y".data)
    (by decide) (by decide) (by decide) (by decide) (by decide) (by decide)
  rw [show ("x @webpage\x7bKEY1,y".data) =
    "x ".data ++ '@' :: ("webpage".data ++ '{' :: ("KEY1".data ++ ',' :: "y".data)) from rfl]
  rw [h]
  decide

theorem isTokChar_not_ws {c : Char} (h : isTokChar c = true) : isWS c = false := by
  unfold isTokChar at h
  rcases hw : isWS c with _ | _
  · rfl
  · rw [hw] at h
    simp at h

theorem matchCitation_build (tok rest : List Char) (ht : tok ≠ [])
    (htc : ∀ c ∈ tok, isTokChar c = true) :
    matchCitationLine ("Citation Key: ".data ++ (tok ++ '\n' :: rest)) = some tok := by
  obtain ⟨d, ds, rfl⟩ : ∃ d ds, tok = d :: ds := by
    cases tok with
    | nil => exact absurd rfl ht
    | cons d ds => exact ⟨d, ds, rfl⟩
  have hd : isWS d = false := isTokChar_not_ws (htc d (by simp))
  have h1 : ("Citation Key: ".data ++ ((d :: ds) ++ '\n' :: rest)).dropWhile isWS =
      "Citation Key: ".data ++ ((d :: ds) ++ '\n' :: rest) := by
    rw [show ("Citation Key: ".data ++ ((d :: ds) ++ '\n' :: rest)) =
      'C' :: ("itation Key: ".data ++ ((d :: ds) ++ '\n' :: rest)) from rfl]
    rw [List.dropWhile_cons_of_neg (by decide)]
  have h2 : stripCI ("Citation Key:".data)
      ("Citation Key: ".data ++ ((d :: ds) ++ '\n' :: rest)) =
      some ("Citation Key:".data, ' ' :: ((d :: ds) ++ '\n' :: rest)) := by
    rw [show ("Citation Key: ".data ++ ((d :: ds) ++ '\n' :: rest)) =
      "Citation Key:".data ++ (' ' :: ((d :: ds) ++ '\n' :: rest)) from rfl]
    exact stripCI_append _ rfl
  have h3 : (' ' :: ((d :: ds) ++ '\n' :: rest)).dropWhile isWS =
      (d :: ds) ++ '\n' :: rest := by
    rw [List.dropWhile_cons_of_pos (by decide), List.cons_append,
      List.dropWhile_cons_of_neg (by simp [hd]), ← List.cons_append]
  have hsplit := run_split htc (show isTokChar '\n' = false by decide) rest
  unfold matchCitationLine
  simp only [h1, h2, h3, hsplit.1, hsplit.2]
  rw [if_neg (show ¬ (d :: ds) = [] by simp)]
  rw [if_pos]
  rw [List.takeWhile_cons_of_pos (show isWS '\n' = true by decide)]
  simp [isLineTerm]

theorem matchCitationLine_head_fail {s : List Char} (h : ∀ c ∈ s, toLowerA c ≠ 'c') :
    matchCitationLine s = none := by
  unfold matchCitationLine
  cases hr : s.dropWhile isWS with
  | nil => simp only [hr]; rfl
  | cons d ds =>
    have hmem : d ∈ s := List.dropWhile_subset isWS (hr ▸ List.mem_cons_self d ds)
    have h2 : toLowerA d ≠ toLowerA 'C' := by
      intro he
      exact h d hmem (he.trans (by decide))
    have hfail : stripCI ("Citation Key:".data) (d :: ds) = none := by
      rw [show ("Citation Key:".data) = 'C' :: "itation Key:".data from rfl]
      exact stripCI_head_fail _ ds h2
    simp only [hr, hfail]

theorem findCitation_fail : ∀ (n : List Char) (flag : Bool),
    (∀ c ∈ n, toLowerA c ≠ 'c') → findCitation flag n = none := by
  intro n
  induction n with
  | nil => intro flag _; rfl
  | cons c cs ih =>
    intro flag h
    have hm := matchCitationLine_head_fail h
    have hr := ih (isLineTerm c) (fun x hx => h x (by simp [hx]))
    cases flag with
    | true =>
      show (match matchCitationLine (c :: cs) with
        | some tok => some tok
        | none => findCitation (isLineTerm c) cs) = none
      rw [hm]
      exact hr
    | false =>
      show findCitation (isLineTerm c) cs = none
      exact hr

/-- Claim C6: a note line of the form Citation Key followed by a colon and
a token yields that token as the pinned key (shown for a leading such line
with an arbitrary continuation, and on the concrete example of the claim);
a missing note yields no pin, a note without the label yields no pin, and
an absent pin leaves the server key unchanged in the header rewrite. -/
theorem claim_C6 :
    (∀ tok rest : List Char, tok ≠ [] → (∀ c ∈ tok, isTokChar c = true) →
      pinnedFromNote (some ("Citation Key: ".data ++ (tok ++ '\n' :: rest))) = some tok) ∧
    pinnedFromNote (some ("Citation Key: Smith2020\nOther text".data)) =
      some ("Smith2020".data) ∧
    pinnedFromNote none = none ∧
    (∀ n : List Char, (∀ c ∈ n, toLowerA c ≠ 'c') → pinnedFromNote (some n) = none) ∧
    (∀ (pin : List Char → Option (List Char)) (k : List Char),
      pin k = none → newKeyOf pin k = k) := by
  refine ⟨?_, by decide, rfl, ?_, ?_⟩
  · intro tok rest ht htc
    have hb := matchCitation_build tok rest ht htc
    show (if ("Citation Key: ".data ++ (tok ++ '\n' :: rest)) = [] then none
      else findCitation true ("Citation Key: ".data ++ (tok ++ '\n' :: rest))) = some tok
    rw [if_neg (by simp)]
    rw [show ("Citation Key: ".data ++ (tok ++ '\n' :: rest)) =
      'C' :: ("itation Key: ".data ++ (tok ++ '\n' :: rest)) from rfl]
    show (match matchCitationLine ('C' :: ("itation Key: ".data ++ (tok ++ '\n' :: rest))) with
      | some t => some t
      | none => findCitation (isLineTerm 'C')
          ("itation Key: ".data ++ (tok ++ '\n' :: rest))) = some tok
    rw [show ('C' :: ("itation Key: ".data ++ (tok ++ '\n' :: rest))) =
      "Citation Key: ".data ++ (tok ++ '\n' :: rest) from rfl, hb]
  · intro n h
    show (if n = [] then none else findCitation true n) = none
    by_cases hn : n = []
    · rw [if_pos hn]
    · rw [if_neg hn, findCitation_fail n true h]
  · intro pin k h
    unfold newKeyOf jsOr
    rw [h]

theorem claim_C6_witness :
    pinnedFromNote (some ("Citation Key: Pin1\nx".data)) = some ("Pin1".data) := by
  have h := claim_C6.1 ("Pin1".data) ("x".data) (by decide) (by decide)
  rw [show ("Citation Key: Pin1\nx".data) =
    "Citation Key: ".data ++ ("Pin1".data ++ '\n' :: "x".data) from rfl]
  exact h

theorem stripCI_inv {f s a r : List Char} (h : stripCI f s = some (a, r)) :
    s = a ++ r ∧ ciMatches a f := by
  induction f generalizing s a r with
  | nil =>
    simp only [stripCI, Option.some.injEq, Prod.mk.injEq] at h
    obtain ⟨h1, h2⟩ := h
    rw [← h1, ← h2]
    exact ⟨rfl, rfl⟩
  | cons c cs ih =>
    match s with
    | [] => simp [stripCI] at h
    | d :: ds =>
      simp only [stripCI] at h
      split at h
      · rename_i hlow
        split at h
        · rename_i a2 r2 hrec
          simp only [Option.some.injEq, Prod.mk.injEq] at h
          obtain ⟨hrec1, hrec2⟩ := ih hrec
          rw [← h.1, ← h.2]
          constructor
          · rw [List.cons_append, ← hrec1]
          · unfold ciMatches
            simp [hrec2, hlow]
            exact hrec2
        · cases h
      · cases h

theorem matchCitationLine_inv {s tok : List Char} (h : matchCitationLine s = some tok) :
    ∃ w lbl w2 r4, s = w ++ (lbl ++ (w2 ++ (tok ++ r4))) ∧
      (∀ c ∈ w, isWS c = true) ∧ ciMatches lbl ("Citation Key:".data) ∧
      (∀ c ∈ w2, isWS c = true) ∧ tok ≠ [] ∧ (∀ c ∈ tok, isTokChar c = true) ∧
      (r4.dropWhile isWS = [] ∨ (r4.takeWhile isWS).any isLineTerm = true) := by
  unfold matchCitationLine at h
  dsimp only at h
  split at h
  · cases h
  · rename_i a r2 hstrip
    obtain ⟨hsr, hci⟩ := stripCI_inv hstrip
    split at h
    · cases h
    · rename_i htokne
      split at h
      · rename_i hcond
        simp only [Option.some.injEq] at h
        refine ⟨s.takeWhile isWS, a, r2.takeWhile isWS,
          (r2.dropWhile isWS).dropWhile isTokChar, ?_, ?_, hci, ?_, ?_, ?_, ?_⟩
        · conv_lhs => rw [← List.takeWhile_append_dropWhile (p := isWS) (l := s)]
          rw [hsr]
          congr 1
          congr 1
          conv_lhs => rw [← List.takeWhile_append_dropWhile (p := isWS) (l := r2)]
          congr 1
          rw [← h]
          exact (List.takeWhile_append_dropWhile (p := isTokChar)
            (l := r2.dropWhile isWS)).symm
        · intro c hc
          exact List.mem_takeWhile_imp hc
        · intro c hc
          exact List.mem_takeWhile_imp hc
        · rw [← h]
          exact htokne
        · intro c hc
          rw [← h] at hc
          exact List.mem_takeWhile_imp hc
        · simpa using hcond
      · cases h

theorem findCitation_inv : ∀ (n : List Char) (flag : Bool) (tok : List Char),
    findCitation flag n = some tok →
    ∃ suf, suf <:+ n ∧ matchCitationLine suf = some tok := by
  intro n
  induction n with
  | nil => intro flag tok h; cases h
  | cons c cs ih =>
    intro flag tok h
    unfold findCitation at h
    cases flag with
    | true =>
      simp only [if_true] at h
      cases hm : matchCitationLine (c :: cs) with
      | some t2 =>
        rw [hm] at h
        simp only [Option.some.injEq] at h
        exact ⟨c :: cs, List.suffix_refl _, by rw [hm, h]⟩
      | none =>
        rw [hm] at h
        obtain ⟨suf, hsuf, hms⟩ := ih (isLineTerm c) tok h
        exact ⟨suf, hsuf.trans (List.suffix_cons c cs), hms⟩
    | false =>
      simp only [Bool.false_eq_true, if_false] at h
      obtain ⟨suf, hsuf, hms⟩ := ih (isLineTerm c) tok h
      exact ⟨suf, hsuf.trans (List.suffix_cons c cs), hms⟩

/-- Claim C10: a pinned key is returned only when some line-start suffix
of the note consists of whitespace, the Citation Key label with a colon
case-insensitively, whitespace, the nonempty token free of whitespace and
hash, and then whitespace reaching the end of the note or a line break;
consequently the two concrete notes with trailing text after the token and
with a hash inside the token register no pin. -/
theorem claim_C10 :
    (∀ note tok : List Char, pinnedFromNote (some note) = some tok →
      ∃ suf w lbl w2 r4, suf <:+ note ∧ suf = w ++ (lbl ++ (w2 ++ (tok ++ r4))) ∧
        (∀ c ∈ w, isWS c = true) ∧ ciMatches lbl ("Citation Key:".data) ∧
        (∀ c ∈ w2, isWS c = true) ∧ tok ≠ [] ∧ (∀ c ∈ tok, isTokChar c = true) ∧
        (r4.dropWhile isWS = [] ∨ (r4.takeWhile isWS).any isLineTerm = true)) ∧
    pinnedFromNote (some ("Citation Key: Smith2020 extra".data)) = none ∧
    pinnedFromNote (some ("Citation Key: Smith#2020".data)) = none := by
  refine ⟨?_, by decide, by decide⟩
  intro note tok h
  have h2 : (if note = [] then none else findCitation true note) = some tok := h
  by_cases hn : note = []
  · rw [if_pos hn] at h2
    cases h2
  · rw [if_neg hn] at h2
    obtain ⟨suf, hsuf, hms⟩ := findCitation_inv note true tok h2
    obtain ⟨w, lbl, w2, r4, hdecomp, hw, hlbl, hw2, htne, htc, hend⟩ :=
      matchCitationLine_inv hms
    exact ⟨suf, w, lbl, w2, r4, hsuf, hdecomp, hw, hlbl, hw2, htne, htc, hend⟩

theorem claim_C10_witness :
    ∃ suf w lbl w2 r4, suf <:+ ("Citation Key: AB\n".data) ∧
      suf = w ++ (lbl ++ (w2 ++ ("AB".data ++ r4))) ∧
      (∀ c ∈ w, isWS c = true) ∧ ciMatches lbl ("Citation Key:".data) ∧
      (∀ c ∈ w2, isWS c = true) ∧ "AB".data ≠ [] ∧
      (∀ c ∈ "AB".data, isTokChar c = true) ∧
      (r4.dropWhile isWS = [] ∨ (r4.takeWhile isWS).any isLineTerm = true) :=
  claim_C10.1 ("Citation Key: AB\n".data) ("AB".data) (by decide)

/-- The word-character state after scanning a string, given the state
before it: the wordness of its last character, or the incoming state when
it is empty. -/
def lastWord (a : List Char) (pw : Bool) : Bool :=
  match a.getLast? with
  | some c => isWordChar c
  | none => pw

theorem lastWord_cons (c : Char) (cs : List Char) (pw : Bool) :
    lastWord (c :: cs) pw = lastWord cs (isWordChar c) := by
  cases cs with
  | nil => rfl
  | cons d ds =>
    unfold lastWord
    rw [List.getLast?_cons_cons]
    cases h : (d :: ds).getLast? with
    | none => simp at h
    | some x => rfl

theorem isWordChar_of_upper {c : Char} (h : isUpperAZ c = true) : isWordChar c = true := by
  unfold isUpperAZ at h
  unfold isWordChar
  rw [h]
  simp

theorem protectWordsF_skip : ∀ (a : List Char) (pw : Bool) (s : List Char),
    (∀ c ∈ a, isUpperAZ c = false) →
    protectWordsF pw (a ++ s) = a ++ protectWordsF (lastWord a pw) s := by
  intro a
  induction a with
  | nil => intro pw s _; rfl
  | cons c cs ih =>
    intro pw s h
    have hc : isUpperAZ c = false := h c (by simp)
    rw [List.cons_append, protectWordsF_cons_skip _ (by simp [hc])]
    rw [ih (isWordChar c) s (fun x hx => h x (by simp [hx]))]
    rw [lastWord_cons]
    rfl

theorem protectWords_wrap (u b : List Char) (hu : ∀ c ∈ u, isUpperAZ c = true)
    (hu2 : 2 ≤ u.length) (hb : noWordAhead b = true) :
    protectWordsF false (u ++ b) =
      '{' :: '{' :: (u ++ '}' :: '}' :: protectWordsF true b) := by
  obtain ⟨c, u2, rfl⟩ : ∃ c u2, u = c :: u2 := by
    cases u with
    | nil => simp at hu2
    | cons c u2 => exact ⟨c, u2, rfl⟩
  have hall : ∀ x ∈ u2, isUpperAZ x = true := fun x hx => hu x (by simp [hx])
  have htake : (u2 ++ b).takeWhile isUpperAZ = u2 ∧ (u2 ++ b).dropWhile isUpperAZ = b := by
    cases b with
    | nil =>
      constructor
      · rw [List.takeWhile_append_of_pos hall]
        simp
      · rw [List.dropWhile_append_of_pos hall]
        rfl
    | cons y ys =>
      have hyw : isWordChar y = false := by
        unfold noWordAhead at hb
        simpa using hb
      have hyu : isUpperAZ y = false := by
        cases hyu2 : isUpperAZ y with
        | false => rfl
        | true => exact absurd (isWordChar_of_upper hyu2) (by simp [hyw])
      exact run_split hall hyu ys
  rw [List.cons_append]
  rw [protectWordsF_cons_wrap (u2 ++ b) (hu c (by simp))
    (by rw [htake.1, htake.2]; exact ⟨by simpa using hu2, hb⟩)]
  rw [htake.1, htake.2]

theorem fieldRepl_head_fail {g : Char} (gs : List Char) {c : Char} (cs : List Char)
    (h : toLowerA c ≠ toLowerA g) : fieldRepl (g :: gs) (c :: cs) = none := by
  unfold fieldRepl
  rw [matchField_head_fail cs h]

theorem fieldRepl_build {g : Char} {gs fv sp1 sp2 content : List Char} (post : List Char)
    (hf : ciMatches fv (g :: gs))
    (hsp1 : ∀ c ∈ sp1, isWS c = true) (hsp2 : ∀ c ∈ sp2, isWS c = true)
    (hc : content ≠ []) (hcc : ∀ c ∈ content, (c != '}') = true) :
    fieldRepl (g :: gs) (fv ++ (sp1 ++ '=' :: (sp2 ++ '{' :: (content ++ '}' :: post)))) =
      some ((fv ++ sp1 ++ '=' :: sp2 ++ ['{']) ++ protectWords content ++ ['}'], post) := by
  unfold fieldRepl
  rw [matchField_build post hf hsp1 hsp2 hc hcc]

theorem protectField_occ (g : Char) (gs pre fv sp1 sp2 content post : List Char)
    (hpre : ∀ c ∈ pre, toLowerA c ≠ toLowerA g) (hf : ciMatches fv (g :: gs))
    (hsp1 : ∀ c ∈ sp1, isWS c = true) (hsp2 : ∀ c ∈ sp2, isWS c = true)
    (hc : content ≠ []) (hcc : ∀ c ∈ content, (c != '}') = true) :
    protectField (g :: gs)
      (pre ++ (fv ++ (sp1 ++ '=' :: (sp2 ++ '{' :: (content ++ '}' :: post))))) =
      pre ++ (fv ++ sp1 ++ '=' :: sp2 ++ '{' ::
        (protectWords content ++ '}' :: protectField (g :: gs) post)) := by
  unfold protectField
  rw [scanRepl_through (fun d ds hd => fieldRepl_head_fail gs ds (hpre d hd))]
  cases fv with
  | nil => simp [ciMatches] at hf
  | cons d ds =>
    rw [List.cons_append,
      scanRepl_cons_match (fieldRepl_consuming _)
        (by rw [← List.cons_append]; exact fieldRepl_build post hf hsp1 hsp2 hc hcc)]
    simp

set_option maxRecDepth 8000 in
/-- Claim C2 (amended): pass 3 runs four single-field replaces in order
(title, booktitle, series, number).  Each single replace wraps, inside
every matched field value, each whole-word run of two or more uppercase
letters in one extra brace pair, leaving single uppercase letters and
text outside the value unchanged.  Because the title regex also matches
the trailing part of a booktitle assignment, booktitle values are
processed twice and an acronym there ends up wrapped twice. -/
theorem claim_C2 :
    protectCapitalsInFields ("title = \x7bThe NASA Program\x7d".data) =
      "title = \x7bThe \x7b\x7bNASA\x7d\x7d Program\x7d".data ∧
    protectCapitalsInFields ("title = \x7bA New Approach\x7d".data) =
      "title = \x7bA New Approach\x7d".data ∧
    protectCapitalsInFields ("booktitle = \x7bThe NASA Program\x7d".data) =
      "booktitle = \x7bThe \x7b\x7b\x7b\x7bNASA\x7d\x7d\x7d\x7d Program\x7d".data ∧
    (∀ (g : Char) (gs pre fv sp1 sp2 content post : List Char),
      (∀ c ∈ pre, toLowerA c ≠ toLowerA g) → ciMatches fv (g :: gs) →
      (∀ c ∈ sp1, isWS c = true) → (∀ c ∈ sp2, isWS c = true) →
      content ≠ [] → (∀ c ∈ content, (c != '}') = true) →
      protectField (g :: gs)
        (pre ++ (fv ++ (sp1 ++ '=' :: (sp2 ++ '{' :: (content ++ '}' :: post))))) =
        pre ++ (fv ++ sp1 ++ '=' :: sp2 ++ '{' ::
          (protectWords content ++ '}' :: protectField (g :: gs) post))) ∧
    (∀ a u b : List Char, (∀ c ∈ a, isUpperAZ c = false) → lastWord a false = false →
      (∀ c ∈ u, isUpperAZ c = true) → 2 ≤ u.length → noWordAhead b = true →
      protectWords (a ++ (u ++ b)) =
        a ++ ('{' :: '{' :: (u ++ '}' :: '}' :: protectWordsF true b))) ∧
    (∀ a : List Char, (∀ c ∈ a, isUpperAZ c = false) → protectWords a = a) := by
  refine ⟨by decide, by decide, by decide, protectField_occ, ?_, ?_⟩
  · intro a u b ha hlast hu hu2 hb
    unfold protectWords
    rw [protectWordsF_skip a false (u ++ b) ha, hlast, protectWords_wrap u b hu hu2 hb]
  · intro a ha
    have h := protectWordsF_skip a false [] ha
    rw [List.append_nil, protectWordsF_nil, List.append_nil] at h
    exact h

set_option maxRecDepth 8000 in
/-- Claim C2 as stated is false on booktitle fields: the acronym in a
booktitle value is wrapped twice, not exactly once, because the title
regex also matches inside the booktitle assignment. -/
theorem claim_C2_counterexample :
    protectCapitalsInFields ("booktitle = \x7bThe NASA Program\x7d".data) =
      "booktitle = \x7bThe \x7b\x7b\x7b\x7bNASA\x7d\x7d\x7d\x7d Program\x7d".data ∧
    protectCapitalsInFields ("booktitle = \x7bThe NASA Program\x7d".data) ≠
      "booktitle = \x7bThe \x7b\x7bNASA\x7d\x7d Program\x7d".data := by
  exact ⟨by decide, by decide⟩

theorem claim_C2_witness :
    protectField ("series".data) ("q series = \x7bIEEE Conf\x7dz".data) =
      "q series = \x7b\x7b\x7bIEEE\x7d\x7d Conf\x7dz".data ∧
    protectWords ("xy NASA".data) = "xy \x7b\x7bNASA\x7d\x7d".data := by
  constructor
  · have h := claim_C2.2.2.2.1 's' ("eries".data) ("q ".data) ("series".data) ([' '])
      ([' ']) ("IEEE Conf".data) ("z".data) (by decide) (by decide) (by decide) (by decide)
      (by decide) (by decide)
    rw [show ("q series = \x7bIEEE Conf\x7dz".data) =
      "q ".data ++ ("series".data ++ ([' '] ++ '=' :: ([' '] ++ '{' ::
        ("IEEE Conf".data ++ '}' :: "z".data)))) from rfl]
    rw [show ("series".data) = 's' :: "eries".data from rfl] at h ⊢
    rw [h]
    decide
  · have h := claim_C2.2.2.2.2.1 ("xy ".data) ("NASA".data) [] (by decide) (by decide)
      (by decide) (by decide) (by decide)
    rw [show ("xy NASA".data) = "xy ".data ++ ("NASA".data ++ []) from rfl]
    rw [h]
    decide

theorem braceChunk_recon {cs inner r2 : List Char} (h : braceChunk cs = some (inner, r2)) :
    cs = inner ++ '}' :: r2 ∧ ∀ x ∈ inner, (!isBrace x) = true := by
  unfold braceChunk at h
  split at h
  · cases h
  · rename_i d r3 heq
    split at h
    · rename_i hd
      simp only [Option.some.injEq, Prod.mk.injEq] at h
      constructor
      · conv_lhs =>
          rw [← List.takeWhile_append_dropWhile (p := fun d => !isBrace d) (l := cs)]
        rw [heq, h.1, h.2, hd]
      · intro x hx
        rw [← h.1] at hx
        exact List.mem_takeWhile_imp (p := fun d => !isBrace d) hx
    · cases h

theorem braceChunk_build (inner rest : List Char)
    (hinner : ∀ x ∈ inner, (!isBrace x) = true) :
    braceChunk (inner ++ '}' :: rest) = some (inner, rest) := by
  unfold braceChunk
  have hsp := run_split hinner (show (!isBrace '}') = false by decide) rest
  rw [hsp.2]
  show (if '}' = '}' then
    some ((inner ++ '}' :: rest).takeWhile (fun d => !isBrace d), rest) else none) =
    some (inner, rest)
  rw [if_pos rfl, hsp.1]

theorem olGo_close (cs : List Char) : oneLevelOK ('}' :: cs) = false := by
  show olGo (cs.length + 1) ('}' :: cs) = false
  simp [olGo]

theorem parseTypeVal_build_aux : ∀ (n : Nat) (v : List Char), v.length ≤ n →
    oneLevelOK v = true → ∀ tl, parseTypeVal (v ++ '}' :: tl) = some (v, tl) := by
  intro n
  induction n with
  | zero =>
    intro v hle _ tl
    have : v = [] := List.eq_nil_of_length_eq_zero (Nat.le_zero.mp hle)
    subst this
    rw [List.nil_append, parseTypeVal_close]
  | succ n ih =>
    intro v hle hok tl
    match v with
    | [] => rw [List.nil_append, parseTypeVal_close]
    | c :: cs =>
      by_cases hc : c = '}'
      · subst hc
        rw [olGo_close] at hok
        cases hok
      · by_cases hb : c = '{'
        · subst hb
          rw [oneLevelOK_open] at hok
          cases heq : braceChunk cs with
          | none => rw [heq] at hok; cases hok
          | some pr =>
            obtain ⟨inner, r2⟩ := pr
            rw [heq] at hok
            obtain ⟨hcs, hinner⟩ := braceChunk_recon heq
            have hlen : r2.length < cs.length := braceChunk_length heq
            simp only [List.length_cons] at hle
            rw [List.cons_append, parseTypeVal_open]
            have hbr : braceChunk (cs ++ '}' :: tl) = some (inner, r2 ++ '}' :: tl) := by
              rw [show cs ++ '}' :: tl = inner ++ '}' :: (r2 ++ '}' :: tl) by
                rw [hcs, List.append_assoc, List.cons_append]]
              exact braceChunk_build inner (r2 ++ '}' :: tl) hinner
            rw [hbr]
            have hok2 : oneLevelOK r2 = true := hok
            show (match parseTypeVal (r2 ++ '}' :: tl) with
              | some (v, r) => some ('{' :: inner ++ '}' :: v, r)
              | none => none) = some ('{' :: cs, tl)
            rw [ih r2 (by omega) hok2 tl]
            show some (('{' :: inner) ++ '}' :: r2, tl) = some ('{' :: cs, tl)
            rw [hcs, List.cons_append]
        · have hok2 : oneLevelOK cs = true := by
            rw [oneLevelOK_plain cs hc hb] at hok
            exact hok
          simp only [List.length_cons] at hle
          rw [List.cons_append, parseTypeVal_plain _ hc hb, ih cs (by omega) hok2 tl]

theorem parseTypeVal_build {v : List Char} (hok : oneLevelOK v = true) (tl : List Char) :
    parseTypeVal (v ++ '}' :: tl) = some (v, tl) :=
  parseTypeVal_build_aux v.length v (Nat.le_refl _) hok tl

theorem not_ws_of_lower_t {c : Char} (h : toLowerA c = 't') : isWS c = false := by
  cases hw : isWS c with
  | false => rfl
  | true =>
    exfalso
    simp only [isWS, Bool.or_eq_true, decide_eq_true_eq] at hw
    rcases hw with ((((((((h1 | h1) | h1) | h1) | h1) | h1) | h1) | h1) | h1) | h1 <;>
      (subst h1; exact absurd h (by decide))

theorem matchTypeField_head_fail {c : Char} (cs : List Char) (hws : isWS c = false)
    (ht : toLowerA c ≠ 't') : matchTypeField (c :: cs) = none := by
  have h1 : (c :: cs).dropWhile isWS = c :: cs := List.dropWhile_cons_of_neg (by simp [hws])
  have h2 : stripCI ("type".data) (c :: cs) = none := by
    rw [show ("type".data) = 't' :: "ype".data from rfl]
    exact stripCI_head_fail _ cs (by rw [show toLowerA 't' = 't' from by decide]; exact ht)
  unfold matchTypeField
  simp only [h1, h2]

theorem matchTypeField_build {ind tv sp1 sp2 v : List Char} (tl : List Char)
    (hind : ∀ c ∈ ind, isWS c = true) (htv : ciMatches tv ("type".data))
    (hsp1 : ∀ c ∈ sp1, isWS c = true) (hsp2 : ∀ c ∈ sp2, isWS c = true)
    (hv : oneLevelOK v = true) :
    matchTypeField (ind ++ (tv ++ (sp1 ++ '=' :: (sp2 ++ '{' :: (v ++ '}' :: ',' :: tl))))) =
      some (ind, v, [','], tl) := by
  obtain ⟨t0, ts, rfl⟩ : ∃ t0 ts, tv = t0 :: ts := by
    cases tv with
    | nil => simp [ciMatches] at htv
    | cons t0 ts => exact ⟨t0, ts, rfl⟩
  have ht0 : toLowerA t0 = 't' := by
    unfold ciMatches at htv
    simp only [List.map_cons] at htv
    have := congrArg (fun l => l.headD ' ') htv
    simpa using this
  have ht0ws : isWS t0 = false := not_ws_of_lower_t ht0
  have hsp := run_split hind ht0ws
    (ts ++ (sp1 ++ '=' :: (sp2 ++ '{' :: (v ++ '}' :: ',' :: tl))))
  have e2 : stripCI ("type".data)
      ((t0 :: ts) ++ (sp1 ++ '=' :: (sp2 ++ '{' :: (v ++ '}' :: ',' :: tl)))) =
      some (t0 :: ts, sp1 ++ '=' :: (sp2 ++ '{' :: (v ++ '}' :: ',' :: tl))) :=
    stripCI_append _ htv
  have e3 := run_split hsp1 (show isWS '=' = false by decide)
    (sp2 ++ '{' :: (v ++ '}' :: ',' :: tl))
  have e4 : reqCharStep '=' ('=' :: (sp2 ++ '{' :: (v ++ '}' :: ',' :: tl))) =
      some (sp2 ++ '{' :: (v ++ '}' :: ',' :: tl)) := reqCharStep_cons _ _
  have e5 := run_split hsp2 (show isWS '{' = false by decide) (v ++ '}' :: ',' :: tl)
  have e6 : reqCharStep '{' ('{' :: (v ++ '}' :: ',' :: tl)) =
      some (v ++ '}' :: ',' :: tl) := reqCharStep_cons _ _
  have e7 : parseTypeVal (v ++ '}' :: ',' :: tl) = some (v, ',' :: tl) :=
    parseTypeVal_build hv (',' :: tl)
  have e8 : (',' :: tl).takeWhile isWS = [] := List.takeWhile_cons_of_neg (by decide)
  have e9 : (',' :: tl).dropWhile isWS = ',' :: tl := List.dropWhile_cons_of_neg (by decide)
  unfold matchTypeField
  rw [show (ind ++ ((t0 :: ts) ++ (sp1 ++ '=' :: (sp2 ++ '{' :: (v ++ '}' :: ',' :: tl))))) =
    ind ++ t0 :: (ts ++ (sp1 ++ '=' :: (sp2 ++ '{' :: (v ++ '}' :: ',' :: tl)))) from by simp]
  simp only [hsp.1, hsp.2]
  rw [show (t0 :: (ts ++ (sp1 ++ '=' :: (sp2 ++ '{' :: (v ++ '}' :: ',' :: tl))))) =
    ((t0 :: ts) ++ (sp1 ++ '=' :: (sp2 ++ '{' :: (v ++ '}' :: ',' :: tl)))) from rfl]
  simp only [e2, e3.1, e3.2, e4, e5.1, e5.2, e6, e7, e8, e9]
  simp

theorem matchTypeField_nil : matchTypeField [] = none := rfl

theorem cleanTypeGoF_match_any {s ind v g4 rest : List Char}
    (h : matchTypeField s = some (ind, v, g4, rest)) :
    cleanTypeGoF true s = ind ++ "type = \x7b".data ++ cleanContent v ++ '}' ::
      (g4 ++ cleanTypeGoF (afterG4LS g4) rest) := by
  match s with
  | [] => rw [matchTypeField_nil] at h; cases h
  | c :: cs => exact cleanTypeGoF_true_match h

theorem ws_of_lineterm {c : Char} (h : isLineTerm c = true) : isWS c = true := by
  simp only [isLineTerm, Bool.or_eq_true, decide_eq_true_eq] at h
  rcases h with ((h1 | h1) | h1) | h1 <;> (subst h1; decide)

theorem cleanTypeGoF_skip : ∀ (pre0 : List Char) (atLS : Bool) (s : List Char),
    pre0 ≠ [] → (∀ c ∈ pre0, toLowerA c ≠ 't' ∧ isWS c = false) →
    cleanTypeGoF atLS (pre0 ++ s) = pre0 ++ cleanTypeGoF false s := by
  intro pre0
  induction pre0 with
  | nil => intro atLS s h _; exact absurd rfl h
  | cons c cs ih =>
    intro atLS s _ h
    have hc := h c (by simp)
    have hm : matchTypeField (c :: (cs ++ s)) = none :=
      matchTypeField_head_fail _ hc.2 hc.1
    have hlt : isLineTerm c = false := by
      cases hl : isLineTerm c with
      | false => rfl
      | true => exact absurd (ws_of_lineterm hl) (by simp [hc.2])
    have hcn : c ≠ '\n' := by
      intro he
      subst he
      exact absurd hc.2 (by decide)
    rw [List.cons_append]
    cases atLS with
    | true =>
      rw [cleanTypeGoF_true_none hm, hlt]
      cases cs with
      | nil => simp
      | cons d ds =>
        rw [ih false s (by simp) (fun x hx => h x (by simp [hx]))]
        rfl
    | false =>
      rw [cleanTypeGoF_false_other _ hcn, hlt]
      cases cs with
      | nil => simp
      | cons d ds =>
        rw [ih false s (by simp) (fun x hx => h x (by simp [hx]))]
        rfl

theorem matchTypeField_no_t {s : List Char} (h : ∀ c ∈ s, toLowerA c ≠ 't') :
    matchTypeField s = none := by
  cases hr : s.dropWhile isWS with
  | nil =>
    unfold matchTypeField
    simp only [hr]
    rfl
  | cons d ds =>
    have hmem : d ∈ s := List.dropWhile_subset isWS (hr ▸ List.mem_cons_self d ds)
    have h2 : stripCI ("type".data) (d :: ds) = none := by
      rw [show ("type".data) = 't' :: "ype".data from rfl]
      exact stripCI_head_fail _ ds
        (by rw [show toLowerA 't' = 't' from by decide]; exact h d hmem)
    unfold matchTypeField
    simp only [hr, h2]

theorem cleanTypeGoF_no_t : ∀ (s : List Char) (flag : Bool),
    (∀ c ∈ s, toLowerA c ≠ 't') → cleanTypeGoF flag s = s := by
  intro s
  induction s with
  | nil => intro flag _; rfl
  | cons c cs ih =>
    intro flag h
    have hm : matchTypeField (c :: cs) = none := matchTypeField_no_t h
    have hm2 : matchTypeField cs = none :=
      matchTypeField_no_t (fun x hx => h x (by simp [hx]))
    have ihs := fun fl => ih fl (fun x hx => h x (by simp [hx]))
    cases flag with
    | true => rw [cleanTypeGoF_true_none hm, ihs _]
    | false =>
      by_cases hc : c = '\n'
      · subst hc
        rw [cleanTypeGoF_nl_none hm2, ihs _]
      · rw [cleanTypeGoF_false_other _ hc, ihs _]

set_option maxRecDepth 8000 in
/-- Claim C5: a type field at the start of a line, with optional leading
whitespace, a case-insensitive field name, one-level-nested content and a
trailing comma, is re-emitted with the indentation kept, the name and
spacing normalized, the braces stripped from the value, whitespace runs
collapsed and ends trimmed, and the comma kept; shown on the concrete
example of the claim, at the start of the text, after a line break
following ordinary text, and text with no letter t is left unchanged. -/
theorem claim_C5 :
    cleanTypeField ("  type = \x7bPolicy \x7bContribution\x7d\x7d,".data) =
      "  type = \x7bPolicy Contribution\x7d,".data ∧
    (∀ ind tv sp1 sp2 v tl : List Char,
      (∀ c ∈ ind, isWS c = true) → ciMatches tv ("type".data) →
      (∀ c ∈ sp1, isWS c = true) → (∀ c ∈ sp2, isWS c = true) → oneLevelOK v = true →
      cleanTypeField (ind ++ (tv ++ (sp1 ++ '=' :: (sp2 ++ '{' :: (v ++ '}' :: ',' :: tl))))) =
        ind ++ "type = \x7b".data ++ cleanContent v ++ '}' :: ',' :: cleanTypeGoF false tl) ∧
    (∀ pre0 ind tv sp1 sp2 v tl : List Char,
      pre0 ≠ [] → (∀ c ∈ pre0, toLowerA c ≠ 't' ∧ isWS c = false) →
      (∀ c ∈ ind, isWS c = true) → ciMatches tv ("type".data) →
      (∀ c ∈ sp1, isWS c = true) → (∀ c ∈ sp2, isWS c = true) → oneLevelOK v = true →
      cleanTypeField (pre0 ++ '\n' ::
          (ind ++ (tv ++ (sp1 ++ '=' :: (sp2 ++ '{' :: (v ++ '}' :: ',' :: tl)))))) =
        pre0 ++ '\n' ::
          (ind ++ "type = \x7b".data ++ cleanContent v ++ '}' :: ',' :: cleanTypeGoF false tl)) ∧
    (∀ s : List Char, (∀ c ∈ s, toLowerA c ≠ 't') → cleanTypeField s = s) := by
  refine ⟨by decide, ?_, ?_, ?_⟩
  · intro ind tv sp1 sp2 v tl hind htv hsp1 hsp2 hv
    unfold cleanTypeField
    rw [cleanTypeGoF_match_any (matchTypeField_build tl hind htv hsp1 hsp2 hv)]
    rw [show afterG4LS [','] = false from by decide]
    simp
  · intro pre0 ind tv sp1 sp2 v tl hpre0 hpre0c hind htv hsp1 hsp2 hv
    unfold cleanTypeField
    rw [show (pre0 ++ '\n' ::
        (ind ++ (tv ++ (sp1 ++ '=' :: (sp2 ++ '{' :: (v ++ '}' :: ',' :: tl)))))) =
      pre0 ++ ('\n' ::
        (ind ++ (tv ++ (sp1 ++ '=' :: (sp2 ++ '{' :: (v ++ '}' :: ',' :: tl)))))) from rfl]
    rw [cleanTypeGoF_skip pre0 true _ hpre0 hpre0c]
    rw [cleanTypeGoF_nl_match (matchTypeField_build tl hind htv hsp1 hsp2 hv)]
    rw [show afterG4LS [','] = false from by decide]
    simp
  · intro s h
    unfold cleanTypeField
    exact cleanTypeGoF_no_t s true h

theorem claim_C5_witness :
    cleanTypeField ("  TYPE= \x7bPolicy \x7bX\x7d\x7d,\n".data) =
      "  type = \x7bPolicy X\x7d,\n".data := by
  have h := claim_C5.2.1 ("  ".data) ("TYPE".data) ([]) ([' '])
    ("Policy \x7bX\x7d".data) ("\n".data)
    (by decide) (by decide) (by decide) (by decide) (by decide)
  rw [show ("  TYPE= \x7bPolicy \x7bX\x7d\x7d,\n".data) =
    "  ".data ++ ("TYPE".data ++ ([] ++ '=' :: ([' '] ++ '{' ::
      ("Policy \x7bX\x7d".data ++ '}' :: ',' :: "\n".data)))) from rfl]
  rw [h]
  decide

theorem indexStep_skip (st : Indexes) (it : CSLItem) (h : itemKeyOf it = []) :
    indexStep st it = st := by
  unfold indexStep
  rw [h]
  simp

/-- Claim C8: the item key of an entry is the substring of its id after
the last slash, a missing id or empty key yielding the empty item key, and
entries with empty item keys are dropped entirely: filtering them away
leaves the three built indexes (and hence the fetches and output they
drive) unchanged. -/
theorem claim_C8 :
    itemKeyOf ⟨some ("12345/ABCDEF12".data), none, none⟩ = "ABCDEF12".data ∧
    itemKeyOf ⟨some [], none, none⟩ = [] ∧
    itemKeyOf ⟨none, none, none⟩ = [] ∧
    (∀ items : List CSLItem,
      buildIndexesTS items = buildIndexesTS (items.filter (fun it => !(itemKeyOf it).isEmpty))) := by
  refine ⟨by decide, by decide, by decide, ?_⟩
  intro items
  unfold buildIndexesTS
  generalize emptyIndexes = st
  induction items generalizing st with
  | nil => simp
  | cons it its ih =>
    by_cases h : itemKeyOf it = []
    · rw [List.filter_cons, if_neg (by simp [List.isEmpty_iff, h])]
      simp only [List.foldl_cons]
      rw [indexStep_skip st it h]
      exact ih st
    · rw [List.filter_cons, if_pos (by simp [List.isEmpty_iff, h])]
      simp only [List.foldl_cons]
      exact ih (indexStep st it)

end ZoteroBib
